import Mathlib

/-!
# Circuit gadgets of the `prover` package

A shallow embedding of `prover/circuit_utils.go`: the Merkle path gadgets
(`ProofRound`, `VerifyProof`), the range check `ReducedModRCheck`, the
endianness codec `SwapBitArrayEndianness` and the field codec built from them
(`ToReducedBinaryBigEndian`, `FromBinaryBigEndian`).

A `frontend.Variable` is modelled by the field element it carries under a
witness assignment, an element of `ZMod R` where `R` is the modulus of the
scalar field.  The constraint builder behind `abstractor.API` is passed
explicitly as a value of type `API R`: it records every assertion that the
gadgets add (evaluated under the assignment) and every call of the compression
gadget.  An assignment satisfies the circuit when every recorded assertion
holds.  A run-time panic (an index out of range, a builder primitive called
with no digit to produce or to read) is modelled by the result `none`.
-/

namespace Prover

/-! ## The scalar field: `api.Compiler().Field()` -/

/-- Worker of `BitLen`: counts the binary digits of `n`, the first argument
bounds the number of halvings (`n` itself is always enough). -/
def bitLenAux : Nat → Nat → Nat
  | 0, _ => 0
  | fuel + 1, n => if n = 0 then 0 else bitLenAux fuel (n / 2) + 1

/-- Go's `big.Int.BitLen` on the modulus: the length of `R` in bits; the bit
length of `0` is `0`. -/
def BitLen (R : Nat) : Nat := bitLenAux R R

/-- Go's `big.Int.Bit` on the modulus: the value of the `i`-th bit of `R`
(`0` beyond the bit length). -/
def Bit (R i : Nat) : Nat := R / 2 ^ i % 2

/-! ## The constraint builder -/

/-- An assertion added to the constraint system, with its operands evaluated
under the witness assignment. -/
inductive Constraint (R : Nat) where
  | isBoolean (v : ZMod R)
  | isEqual (a b : ZMod R)
deriving DecidableEq

/-- Whether the assignment satisfies one assertion. -/
def Constraint.holds {R : Nat} : Constraint R → Bool
  | .isBoolean v => decide (v = 0 ∨ v = 1)
  | .isEqual a b => decide (a = b)

/-- The state of the builder behind `abstractor.API`: the assertions recorded
so far (most recent first) and the input pairs of the compression gadget calls
made so far (most recent first). -/
structure API (R : Nat) where
  constraints : List (Constraint R)
  calls : List (ZMod R × ZMod R)
deriving DecidableEq

/-- A fresh builder: nothing asserted, nothing called. -/
def API.empty (R : Nat) : API R := ⟨[], []⟩

/-- The assignment satisfies the circuit built so far: every recorded
assertion holds. -/
def API.satisfied {R : Nat} (api : API R) : Bool :=
  api.constraints.all Constraint.holds

/-- The primitive `api.AssertIsBoolean(v)`: fails unless `v` is `0` or `1`. -/
def AssertIsBoolean {R : Nat} (api : API R) (v : ZMod R) : API R :=
  ⟨Constraint.isBoolean v :: api.constraints, api.calls⟩

/-- The primitive `api.AssertIsEqual(a, b)`. -/
def AssertIsEqual {R : Nat} (api : API R) (a b : ZMod R) : API R :=
  ⟨Constraint.isEqual a b :: api.constraints, api.calls⟩

/-- The primitive `api.Sub(a, b)`: field subtraction, no assertion. -/
def Sub {R : Nat} (api : API R) (a b : ZMod R) : ZMod R × API R :=
  (a - b, api)

/-- The primitive `api.Or(a, b)`: both operands are asserted boolean and the
result is `a + b - a * b`. -/
def Or {R : Nat} (api : API R) (a b : ZMod R) : ZMod R × API R :=
  (a + b - a * b, AssertIsBoolean (AssertIsBoolean api a) b)

/-- The primitive `api.Select(b, i1, i2)`: the condition is asserted boolean
and the result is `i2 + b * (i1 - i2)`, that is `i1` when `b = 1` and `i2`
when `b = 0`. -/
def Select {R : Nat} (api : API R) (b i1 i2 : ZMod R) : ZMod R × API R :=
  (i2 + b * (i1 - i2), AssertIsBoolean api b)

/-- The field element that little-endian `bits` recompose to:
the sum of `bits[i] * 2 ^ i`. -/
def recompose {R : Nat} (bits : List (ZMod R)) : ZMod R :=
  bits.foldr (fun b acc => b + 2 * acc) 0

/-- The primitive `api.FromBinary(bits...)`: every operand is asserted boolean
and the result is their little-endian recomposition.  The builder panics when
it is given no operand at all; `none` stands for that run-time panic. -/
def FromBinary {R : Nat} (api : API R) (bits : List (ZMod R)) : Option (ZMod R × API R) :=
  if bits.length = 0 then none
  else some (recompose bits, bits.foldl AssertIsBoolean api)

/-- The primitive `api.ToBinary(v, size)`, `size` being a Go `int`: allocates
`size` internal variables (`w i` is the value the witness assigns to the
`i`-th one), asserts each of them boolean and asserts that they recompose to
`v`.  The builder panics when the number of digits asked for is not positive;
`none` stands for that run-time panic. -/
def ToBinary {R : Nat} (api : API R) (v : ZMod R) (size : Int) (w : Nat → ZMod R) :
    Option (List (ZMod R) × API R) :=
  if size ≤ 0 then none
  else
    let bits := (List.range size.toNat).map w
    some (bits, AssertIsEqual (bits.foldl AssertIsBoolean api) (recompose bits) v)

/-- Modelled from the spec: the gadget `poseidon.Poseidon2` of package
`prover/poseidon`, the Compression Primitive `compress(a, b)`, a deterministic
two-input, one-output function on field elements.  The function itself is the
parameter `compress`; the call is logged in the builder. -/
def Poseidon2 {R : Nat} (compress : ZMod R → ZMod R → ZMod R) (api : API R)
    (In1 In2 : ZMod R) : List (ZMod R) × API R :=
  ([compress In1 In2], ⟨api.constraints, (In1, In2) :: api.calls⟩)

/-! ## Merkle path gadgets -/

/-- The error value `bitPatternLengthError`. -/
structure bitPatternLengthError where
  actualLength : Int
deriving DecidableEq, Repr

/-- The gadget `ProofRound`. -/
structure ProofRound (R : Nat) where
  Direction : ZMod R
  Hash : ZMod R
  Sibling : ZMod R

/-- The method `ProofRound.DefineGadget`.  The result of the compression call
is indexed at `0`; `none` stands for the run-time panic of an index out of
range. -/
def ProofRound.DefineGadget {R : Nat} (compress : ZMod R → ZMod R → ZMod R)
    (gadget : ProofRound R) (api : API R) : Option (List (ZMod R) × API R) :=
  let api := AssertIsBoolean api gadget.Direction
  let (d1, api) := Select api gadget.Direction gadget.Hash gadget.Sibling
  let (d2, api) := Select api gadget.Direction gadget.Sibling gadget.Hash
  let (out, api) := Poseidon2 compress api d1 d2
  match out[0]? with
  | some sum => some ([sum], api)
  | none => none

/-- The gadget `VerifyProof`. -/
structure VerifyProof (R : Nat) where
  Proof : List (ZMod R)
  Path : List (ZMod R)

/-- The loop of `VerifyProof.DefineGadget`,
`for i := 1; i < len(gadget.Proof); i++`.  The first argument is the number
`len(gadget.Proof) - i` of iterations still to run, so the loop counter is
`i = len(gadget.Proof) - (k + 1)` in the body and the loop exits at `0`.
`none` stands for the run-time panic of an index out of range. -/
def VerifyProof.loop {R : Nat} (compress : ZMod R → ZMod R → ZMod R)
    (gadget : VerifyProof R) : Nat → ZMod R → API R → Option (ZMod R × API R)
  | 0, sum, api => some (sum, api)
  | k + 1, sum, api =>
    let i := gadget.Proof.length - (k + 1)
    match gadget.Path[i - 1]?, gadget.Proof[i]? with
    | some direction, some hash =>
      match ProofRound.DefineGadget compress ⟨direction, hash, sum⟩ api with
      | some (out, api) =>
        match out[0]? with
        | some sum => VerifyProof.loop compress gadget k sum api
        | none => none
      | none => none
    | _, _ => none

/-- The method `VerifyProof.DefineGadget`.  `none` stands for the run-time
panic of an index out of range. -/
def VerifyProof.DefineGadget {R : Nat} (compress : ZMod R → ZMod R → ZMod R)
    (gadget : VerifyProof R) (api : API R) : Option (List (ZMod R) × API R) :=
  match gadget.Proof[0]? with
  | none => none
  | some sum =>
    match VerifyProof.loop compress gadget (gadget.Proof.length - 1) sum api with
    | some (sum, api) => some ([sum], api)
    | none => none

/-! ## The range check -/

/-- The gadget `ReducedModRCheck`. -/
structure ReducedModRCheck (R : Nat) where
  Input : List (ZMod R)

/-- The loop of `ReducedModRCheck.DefineGadget`,
`for i := len(r.Input) - 1; i >= 0; i--`.  The first argument is `i + 1`, so
the body below runs at loop counter `i` and the loop exits at `0`
(`i = -1`).  The counter stays below `len(r.Input)`, so `r.Input[i]` is
always in range.  The result is the final `failed`, `succeeded` and
builder. -/
def ReducedModRCheck.loop {R : Nat} (r : ReducedModRCheck R) :
    Nat → ZMod R → ZMod R → API R → ZMod R × ZMod R × API R
  | 0, failed, succeeded, api => (failed, succeeded, api)
  | i + 1, failed, succeeded, api =>
    let api := AssertIsBoolean api (r.Input.getD i 0)
    if Bit R i = 0 then
      let (o, api) := Or api (r.Input.getD i 0) failed
      let (failed, api) := Select api succeeded 0 o
      ReducedModRCheck.loop r i failed succeeded api
    else
      let (bitNeg, api) := Sub api 1 (r.Input.getD i 0)
      let (o, api) := Or api bitNeg succeeded
      let (succeeded, api) := Select api failed 0 o
      ReducedModRCheck.loop r i failed succeeded api

/-- The method `ReducedModRCheck.DefineGadget`. -/
def ReducedModRCheck.DefineGadget {R : Nat} (r : ReducedModRCheck R) (api : API R) :
    List (ZMod R) × API R :=
  if r.Input.length < BitLen R then
    ([], api)
  else
    let (_, succeeded, api) := ReducedModRCheck.loop r r.Input.length 0 0 api
    let api := AssertIsEqual api succeeded 1
    ([], api)

/-! ## The endianness codec and the field codec -/

/-- The loop of `SwapBitArrayEndianness`,
`for i := bitPatternLength - 8; i >= 0; i -= 8`, with `bits[i : i+8]`
appended to `newBits` in the body.  The counter never exceeds
`len(bits) - 8`, so the slice expression is always in range. -/
def SwapBitArrayEndianness.loop {α : Type} (bits : List α) (i : Int) (newBits : List α) :
    List α :=
  if 0 ≤ i then
    let currentBytes := (bits.drop i.toNat).take 8
    SwapBitArrayEndianness.loop bits (i - 8) (newBits ++ currentBytes)
  else
    newBits
termination_by (i + 8).toNat
decreasing_by omega

/-- The function `SwapBitArrayEndianness`.  The two results are `newBits` and
`err`; a nil slice is the empty list and a nil error is `none`. -/
def SwapBitArrayEndianness {α : Type} (bits : List α) :
    List α × Option bitPatternLengthError :=
  let bitPatternLength : Int := bits.length
  if bitPatternLength % 8 ≠ 0 then
    ([], some ⟨bitPatternLength⟩)
  else
    let newBits := SwapBitArrayEndianness.loop bits (bitPatternLength - 8) []
    if bitPatternLength ≠ newBits.length then
      ([], some ⟨newBits.length⟩)
    else
      (newBits, none)

/-- The function `ToReducedBinaryBigEndian`, with the builder passed in and
out; `value` is the argument `variable`, `size` is a Go `int` and `w` is the
witness assignment of the variables that `api.ToBinary` allocates.  The
results are `bitsBigEndian`, `err` and the builder; `none` stands for the
run-time panic of `api.ToBinary`. -/
def ToReducedBinaryBigEndian {R : Nat} (value : ZMod R) (size : Int) (api : API R)
    (w : Nat → ZMod R) : Option (List (ZMod R) × Option bitPatternLengthError × API R) :=
  match ToBinary api value size w with
  | none => none
  | some (bitsLittleEndian, api) =>
    let (_, api) := ReducedModRCheck.DefineGadget ⟨bitsLittleEndian⟩ api
    let (bitsBigEndian, err) := SwapBitArrayEndianness bitsLittleEndian
    some (bitsBigEndian, err, api)

/-- The function `FromBinaryBigEndian`, with the builder passed in and out.
The results are `variable` (`none` is the nil variable), `err` and the
builder; the outer `none` stands for the run-time panic of
`api.FromBinary`. -/
def FromBinaryBigEndian {R : Nat} (bitsBigEndian : List (ZMod R)) (api : API R) :
    Option (Option (ZMod R) × Option bitPatternLengthError × API R) :=
  match SwapBitArrayEndianness bitsBigEndian with
  | (_, some err) => some (none, some err, api)
  | (bitsLittleEndian, none) =>
    match FromBinary api bitsLittleEndian with
    | none => none
    | some (value, api) => some (some value, none, api)

/-! ## Notions used to state the properties -/

/-- The unsigned integer that a little-endian vector of field elements
encodes: the sum of `bits[i] * 2 ^ i`, each element taken by its canonical
representative. -/
def bitsValue {R : Nat} (bits : List (ZMod R)) : Nat :=
  bits.foldr (fun b acc => b.val + 2 * acc) 0

/-- The `L`-bit little-endian binary expansion of `y`, as field elements. -/
def toBits (R L y : Nat) : List (ZMod R) :=
  (List.range L).map (fun i => ((y / 2 ^ i % 2 : Nat) : ZMod R))

/-- The state of the comparison kept by the two flags of `ReducedModRCheck`:
`succeeded` alone is set when `a < b`, `failed` alone is set when `b < a`, and
neither is set when `a = b`. -/
def Compared {R : Nat} (failed succeeded : ZMod R) (a b : Nat) : Prop :=
  (succeeded = 1 ∧ failed = 0 ∧ a < b) ∨ (succeeded = 0 ∧ failed = 1 ∧ b < a) ∨
    (succeeded = 0 ∧ failed = 0 ∧ a = b)



/-- The first `k` eight-element chunks of `bits`, last chunk first, each chunk
in its own order. -/
def reversedChunks {α : Type} (bits : List α) : Nat → List α
  | 0 => []
  | k + 1 => (bits.drop (8 * k)).take 8 ++ reversedChunks bits k

/-- The running value `run_i` of the fold of a path: `run_0 = Proof[0]` and
`run_(i+1)` compresses `run_i` on the left of `Proof[i+1]` when `Path[i] = 0`
and on its right otherwise. -/
def run {R : Nat} (compress : ZMod R → ZMod R → ZMod R) (Proof Path : List (ZMod R)) :
    Nat → ZMod R
  | 0 => Proof.getD 0 0
  | i + 1 =>
    if Path.getD i 0 = 0 then compress (run compress Proof Path i) (Proof.getD (i + 1) 0)
    else compress (Proof.getD (i + 1) 0) (run compress Proof Path i)

/-- The ordered pair that round `i + 1` of the fold hands to the compression
function. -/
def roundInputs {R : Nat} (compress : ZMod R → ZMod R → ZMod R) (Proof Path : List (ZMod R))
    (i : Nat) : ZMod R × ZMod R :=
  if Path.getD i 0 = 0 then (run compress Proof Path i, Proof.getD (i + 1) 0)
  else (Proof.getD (i + 1) 0, run compress Proof Path i)

/-- The running value and the builder after `i` rounds of a fold over the
proof: it starts from `Proof[0]` and round `i + 1` replaces the running value
by the output of the `ProofRound` gadget that `wire` builds from the direction
`Path[i]`, the running value and the proof element `Proof[i + 1]`.  `none`
stands for an index out of range. -/
def foldRounds {R : Nat} (compress : ZMod R → ZMod R → ZMod R)
    (wire : ZMod R → ZMod R → ZMod R → ProofRound R) (gadget : VerifyProof R) (api : API R) :
    Nat → Option (ZMod R × API R)
  | 0 =>
    match gadget.Proof[0]? with
    | some leaf => some (leaf, api)
    | none => none
  | i + 1 =>
    match foldRounds compress wire gadget api i, gadget.Proof[i + 1]?, gadget.Path[i]? with
    | some (running, api1), some element, some direction =>
      match ProofRound.DefineGadget compress (wire direction running element) api1 with
      | some (out, api2) =>
        match out[0]? with
        | some sum => some (sum, api2)
        | none => none
      | none => none
    | _, _, _ => none

/-- The fold of `D = len(Proof) - 1` rounds in which `ProofRound` is applied
with `Hash = Proof[i]`, `Sibling = running value` and
`Direction = Path[i-1]`. -/
def VerifyProof.siblingFold {R : Nat} (compress : ZMod R → ZMod R → ZMod R)
    (gadget : VerifyProof R) (api : API R) : Option (List (ZMod R) × API R) :=
  match foldRounds compress (fun direction running element => ⟨direction, element, running⟩)
      gadget api (gadget.Proof.length - 1) with
  | some (sum, api1) => some ([sum], api1)
  | none => none

/-- The input pairs of the compression calls that `VerifyProof` makes on
`Proof` and `Path` from a fresh builder, most recent first (empty when the
gadget panics). -/
def compressionCalls {R : Nat} (compress : ZMod R → ZMod R → ZMod R)
    (Proof Path : List (ZMod R)) : List (ZMod R × ZMod R) :=
  match VerifyProof.DefineGadget compress ⟨Proof, Path⟩ (API.empty R) with
  | some (_, api) => api.calls
  | none => []

/-- A sample compression function on the field of `7` elements, not
symmetric in its two inputs. -/
def sampleCompress7 (a b : ZMod 7) : ZMod 7 := a + 2 * b

/-- One iteration of the loop of `ReducedModRCheck.DefineGadget` at loop
counter `i`: the body of `ReducedModRCheck.loop`, taking the flags `failed`,
`succeeded` and the builder before the iteration to those after it. -/
def ReducedModRCheck.body {R : Nat} (r : ReducedModRCheck R) (i : Nat)
    (failed succeeded : ZMod R) (api : API R) : ZMod R × ZMod R × API R :=
  let api := AssertIsBoolean api (r.Input.getD i 0)
  if Bit R i = 0 then
    let (o, api) := Or api (r.Input.getD i 0) failed
    let (failed, api) := Select api succeeded 0 o
    (failed, succeeded, api)
  else
    let (bitNeg, api) := Sub api 1 (r.Input.getD i 0)
    let (o, api) := Or api bitNeg succeeded
    let (succeeded, api) := Select api failed 0 o
    (failed, succeeded, api)

/-- The flags `failed`, `succeeded` and the builder after the first `j`
iterations of the scan of `ReducedModRCheck`, those at the loop counters
`len(r.Input) - 1` down to `len(r.Input) - j`. -/
def ReducedModRCheck.stateAfter {R : Nat} (r : ReducedModRCheck R) (api : API R) :
    Nat → ZMod R × ZMod R × API R
  | 0 => (0, 0, api)
  | j + 1 =>
    ReducedModRCheck.body r (r.Input.length - (j + 1))
      (ReducedModRCheck.stateAfter r api j).1 (ReducedModRCheck.stateAfter r api j).2.1
      (ReducedModRCheck.stateAfter r api j).2.2

/-- The path `Path` with the direction bit at position `k` flipped: `0`
becomes `1` and `1` becomes `0`. -/
def flipDirection {R : Nat} (Path : List (ZMod R)) (k : Nat) : List (ZMod R) :=
  Path.set k (1 - Path.getD k 0)

/-- A sample compression function in characteristic `0` (`ZMod 0` is the ring
of integers) that is injective on pairs: the code of the pair of its inputs
under the standard encoding of pairs of integers by natural numbers. -/
def pairCompress : ZMod 0 → ZMod 0 → ZMod 0 :=
  fun (a b : Int) => ((Encodable.encode (a, b) : Nat) : Int)

/-! ## Facts about the field and the builder -/

theorem lt_two_pow_bitLenAux (fuel : Nat) : ∀ n, n ≤ fuel → n < 2 ^ bitLenAux fuel n := by
  induction fuel with
  | zero => intro n hn; simp [bitLenAux]; omega
  | succ fuel ih =>
    intro n hn
    unfold bitLenAux
    split
    · omega
    · have h := ih (n / 2) (by omega)
      rw [pow_succ]
      omega

theorem lt_two_pow_BitLen (R : Nat) : R < 2 ^ BitLen R :=
  lt_two_pow_bitLenAux R R le_rfl

theorem bitLenAux_le (fuel : Nat) : ∀ n L, n < 2 ^ L → bitLenAux fuel n ≤ L := by
  induction fuel with
  | zero => intro n L _; simp [bitLenAux]
  | succ fuel ih =>
    intro n L hn
    unfold bitLenAux
    split
    · omega
    · cases L with
      | zero => simp at hn; omega
      | succ L =>
        have h := ih (n / 2) L (by rw [pow_succ] at hn; omega)
        omega

theorem BitLen_le_iff (R L : Nat) : BitLen R ≤ L ↔ R < 2 ^ L := by
  constructor
  · intro h
    exact lt_of_lt_of_le (lt_two_pow_BitLen R) (Nat.pow_le_pow_right (by decide) h)
  · exact bitLenAux_le R R L

theorem div_two_pow_eq_zero_of_BitLen_le (R L : Nat) (h : BitLen R ≤ L) : R / 2 ^ L = 0 :=
  Nat.div_eq_of_lt ((BitLen_le_iff R L).1 h)

theorem div_two_pow_step (R i : Nat) : R / 2 ^ i = Bit R i + 2 * (R / 2 ^ (i + 1)) := by
  unfold Bit
  rw [pow_succ, ← Nat.div_div_eq_div_mul]
  omega

theorem Bit_lt_two (R i : Nat) : Bit R i < 2 := Nat.mod_lt _ (by decide)

@[simp] theorem satisfied_AssertIsBoolean {R : Nat} (api : API R) (v : ZMod R) :
    (AssertIsBoolean api v).satisfied = (decide (v = 0 ∨ v = 1) && api.satisfied) := by
  simp [AssertIsBoolean, API.satisfied, Constraint.holds]

@[simp] theorem satisfied_AssertIsEqual {R : Nat} (api : API R) (a b : ZMod R) :
    (AssertIsEqual api a b).satisfied = (decide (a = b) && api.satisfied) := by
  simp [AssertIsEqual, API.satisfied, Constraint.holds]

theorem bitsValue_drop {R : Nat} (Input : List (ZMod R)) (i : Nat) (hi : i < Input.length) :
    bitsValue (Input.drop i) = (Input.getD i 0).val + 2 * bitsValue (Input.drop (i + 1)) := by
  have hget : Input.getD i 0 = Input[i] := List.getD_eq_getElem _ _ hi
  rw [List.drop_eq_getElem_cons hi, hget]
  rfl


theorem Compared_step {R : Nat} (hR : 1 < R) (failed succeeded b : ZMod R) (A B rb : Nat)
    (h : Compared failed succeeded A B) (hb : b = 0 ∨ b = 1) (hrb : rb < 2) :
    (rb = 0 →
      Compared (b + failed - b * failed + succeeded * (0 - (b + failed - b * failed))) succeeded
        (b.val + 2 * A) (rb + 2 * B)) ∧
    (rb ≠ 0 →
      Compared failed
        (1 - b + succeeded - (1 - b) * succeeded +
          failed * (0 - (1 - b + succeeded - (1 - b) * succeeded)))
        (b.val + 2 * A) (rb + 2 * B)) := by
  haveI : Fact (1 < R) := ⟨hR⟩
  have h1 : (1 : ZMod R).val = 1 := ZMod.val_one R
  have h0 : (0 : ZMod R).val = 0 := ZMod.val_zero
  unfold Compared at h ⊢
  rcases h with ⟨hs, hf, hlt⟩ | ⟨hs, hf, hlt⟩ | ⟨hs, hf, hlt⟩ <;>
    rcases hb with hb | hb <;> subst hs hf hb <;>
    refine ⟨fun hz => ?_, fun hz => ?_⟩ <;> simp [h1, h0] <;> omega


theorem Compared_bool {R : Nat} (failed succeeded : ZMod R) (A B : Nat)
    (h : Compared failed succeeded A B) :
    (failed = 0 ∨ failed = 1) ∧ (succeeded = 0 ∨ succeeded = 1) := by
  unfold Compared at h
  rcases h with ⟨hs, hf, _⟩ | ⟨hs, hf, _⟩ | ⟨hs, hf, _⟩ <;> simp [hs, hf]

theorem ReducedModRCheck_loop_spec {R : Nat} (hR : 1 < R) (Input : List (ZMod R))
    (hbool : ∀ b ∈ Input, b = 0 ∨ b = 1) :
    ∀ k, k ≤ Input.length → ∀ (failed succeeded : ZMod R) (api : API R),
      Compared failed succeeded (bitsValue (Input.drop k)) (R / 2 ^ k) →
      ∃ f s api1, ReducedModRCheck.loop ⟨Input⟩ k failed succeeded api = (f, s, api1) ∧
        api1.satisfied = api.satisfied ∧ api1.calls = api.calls ∧
        Compared f s (bitsValue Input) R := by
  intro k
  induction k with
  | zero =>
    intro _ failed succeeded api h
    exact ⟨failed, succeeded, api, rfl, rfl, rfl, by simpa using h⟩
  | succ k ih =>
    intro hk failed succeeded api h
    have hlt : k < Input.length := hk
    have hb : Input.getD k 0 = 0 ∨ Input.getD k 0 = 1 := by
      rw [List.getD_eq_getElem _ _ hlt]
      exact hbool _ (List.getElem_mem hlt)
    have hfs := Compared_bool _ _ _ _ h
    have hstep := Compared_step hR failed succeeded (Input.getD k 0)
      (bitsValue (Input.drop (k + 1))) (R / 2 ^ (k + 1)) (Bit R k) h hb (Bit_lt_two R k)
    rw [← bitsValue_drop Input k hlt, ← div_two_pow_step R k] at hstep
    by_cases hz : Bit R k = 0
    · obtain ⟨f, s, api1, he, hsat, hcalls, hc⟩ := ih (Nat.le_of_lt hlt) _ _
        (AssertIsBoolean (AssertIsBoolean (AssertIsBoolean
          (AssertIsBoolean api (Input.getD k 0)) (Input.getD k 0)) failed) succeeded)
        (hstep.1 hz)
      refine ⟨f, s, api1, ?_, ?_, ?_, hc⟩
      · simp only [ReducedModRCheck.loop, Or, Select, if_pos hz]
        exact he
      · rw [hsat]
        simp only [satisfied_AssertIsBoolean, hb, hfs.1, hfs.2, decide_True, Bool.true_and]
      · rw [hcalls]; rfl
    · have hnb : (1 : ZMod R) - Input.getD k 0 = 0 ∨ (1 : ZMod R) - Input.getD k 0 = 1 := by
        rcases hb with hb | hb <;> rw [hb] <;> simp
      obtain ⟨f, s, api1, he, hsat, hcalls, hc⟩ := ih (Nat.le_of_lt hlt) _ _
        (AssertIsBoolean (AssertIsBoolean (AssertIsBoolean
          (AssertIsBoolean api (Input.getD k 0)) (1 - Input.getD k 0)) succeeded) failed)
        (hstep.2 hz)
      refine ⟨f, s, api1, ?_, ?_, ?_, hc⟩
      · simp only [ReducedModRCheck.loop, Or, Select, Sub, if_neg hz]
        exact he
      · rw [hsat]
        simp only [satisfied_AssertIsBoolean, hb, hfs.1, hfs.2, hnb, decide_True, Bool.true_and]
      · rw [hcalls]; rfl


theorem ReducedModRCheck_spec {R : Nat} (hR : 1 < R) (Input : List (ZMod R))
    (hbool : ∀ b ∈ Input, b = 0 ∨ b = 1) (hL : BitLen R ≤ Input.length) (api : API R) :
    ∃ f s api1, ReducedModRCheck.DefineGadget ⟨Input⟩ api = ([], AssertIsEqual api1 s 1) ∧
      api1.satisfied = api.satisfied ∧ api1.calls = api.calls ∧
      Compared f s (bitsValue Input) R := by
  have h0 : Compared (0 : ZMod R) 0 (bitsValue (Input.drop Input.length))
      (R / 2 ^ Input.length) := by
    rw [List.drop_length, div_two_pow_eq_zero_of_BitLen_le R _ hL]
    exact Or.inr (Or.inr ⟨rfl, rfl, rfl⟩)
  obtain ⟨f, s, api1, he, hsat, hcalls, hc⟩ :=
    ReducedModRCheck_loop_spec hR Input hbool Input.length le_rfl 0 0 api h0
  refine ⟨f, s, api1, ?_, hsat, hcalls, hc⟩
  unfold ReducedModRCheck.DefineGadget
  rw [if_neg (by simpa using hL)]
  simp only [he]

theorem toBits_length (R L y : Nat) : (toBits R L y).length = L := by
  simp [toBits]

theorem toBits_bool (R L y : Nat) : ∀ b ∈ toBits R L y, b = 0 ∨ b = 1 := by
  intro b hb
  simp only [toBits, List.mem_map, List.mem_range] at hb
  obtain ⟨i, _, rfl⟩ := hb
  rcases Nat.mod_two_eq_zero_or_one (y / 2 ^ i) with h | h <;> simp [h]

theorem bitsValue_map_range' {R : Nat} (hR : 1 < R) (y : Nat) :
    ∀ L s, bitsValue ((List.range' s L).map (fun i => ((y / 2 ^ i % 2 : Nat) : ZMod R))) =
      y / 2 ^ s % 2 ^ L := by
  intro L
  induction L with
  | zero => intro s; simp [bitsValue, Nat.mod_one]
  | succ L ih =>
    intro s
    have hv : ((y / 2 ^ s % 2 : Nat) : ZMod R).val = y / 2 ^ s % 2 :=
      ZMod.val_cast_of_lt (lt_of_lt_of_le (Nat.mod_lt _ (by decide)) hR)
    have hrec := ih (s + 1)
    rw [List.range'_succ, List.map_cons]
    show ((y / 2 ^ s % 2 : Nat) : ZMod R).val + 2 * bitsValue _ = _
    rw [hv, hrec, pow_succ 2 s, ← Nat.div_div_eq_div_mul, pow_succ 2 L, Nat.mul_comm (2 ^ L) 2,
      Nat.mod_mul]

theorem bitsValue_toBits {R : Nat} (hR : 1 < R) (L y : Nat) :
    bitsValue (toBits R L y) = y % 2 ^ L := by
  have h := bitsValue_map_range' hR y L 0
  rw [← List.range_eq_range'] at h
  simpa [toBits] using h


/-! ## The range check: soundness and completeness -/

/-- C1. Soundness of `ReducedModRCheck`: for an input of length at least the
bit length of the modulus `R` whose elements are all boolean and whose
little-endian value is at least `R` (the boundary value `R` included), the
gadget ends with the assertion `succeeded = 1` on a flag that is not `1`, so
the constraints are unsatisfied whatever the builder held before. -/
theorem ReducedModRCheck_rejects_not_reduced (R : Nat) (hR : 1 < R) (Input : List (ZMod R))
    (api : API R) (hL : BitLen R ≤ Input.length) (hbool : ∀ b ∈ Input, b = 0 ∨ b = 1)
    (hy : R ≤ bitsValue Input) :
    ∃ succeeded api1,
      ReducedModRCheck.DefineGadget ⟨Input⟩ api = ([], AssertIsEqual api1 succeeded 1) ∧
      succeeded ≠ 1 ∧ (ReducedModRCheck.DefineGadget ⟨Input⟩ api).2.satisfied = false := by
  haveI : Fact (1 < R) := ⟨hR⟩
  obtain ⟨f, s, api1, he, _, _, hc⟩ := ReducedModRCheck_spec hR Input hbool hL api
  have hs : s ≠ 1 := by
    rcases hc with ⟨_, _, hlt⟩ | ⟨hs, _, _⟩ | ⟨hs, _, _⟩
    · omega
    · rw [hs]; exact zero_ne_one
    · rw [hs]; exact zero_ne_one
  refine ⟨s, api1, he, hs, ?_⟩
  rw [he]
  simp [hs]

/-- Witness of C1 at the boundary: modulus `13`, the four bits of `13`. -/
theorem ReducedModRCheck_rejects_not_reduced_witness :
    (1 < 13 ∧ BitLen 13 ≤ ([1, 0, 1, 1] : List (ZMod 13)).length ∧
      (∀ b ∈ ([1, 0, 1, 1] : List (ZMod 13)), b = 0 ∨ b = 1) ∧
      13 ≤ bitsValue ([1, 0, 1, 1] : List (ZMod 13))) ∧
    ∃ succeeded api1,
      ReducedModRCheck.DefineGadget ⟨[1, 0, 1, 1]⟩ (API.empty 13) =
        ([], AssertIsEqual api1 succeeded 1) ∧
      succeeded ≠ 1 ∧
      (ReducedModRCheck.DefineGadget ⟨[1, 0, 1, 1]⟩ (API.empty 13)).2.satisfied = false :=
  ⟨⟨by decide, by decide, by decide, by decide⟩,
    ReducedModRCheck_rejects_not_reduced 13 (by decide) [1, 0, 1, 1] (API.empty 13)
      (by decide) (by decide) (by decide)⟩

/-- C2. Completeness of `ReducedModRCheck`: for a length `L` at least the bit
length of the modulus `R` and an integer `y < R` (the boundary value `R - 1`
included), on the `L`-bit little-endian binary expansion of `y` the gadget
returns no output and every constraint it adds holds: the builder is satisfied
after the gadget exactly when it was before, and a fresh builder is
satisfied. -/
theorem ReducedModRCheck_accepts_reduced (R : Nat) (hR : 1 < R) (L y : Nat) (api : API R)
    (hL : BitLen R ≤ L) (hy : y < R) :
    (toBits R L y).length = L ∧ bitsValue (toBits R L y) = y ∧
    (ReducedModRCheck.DefineGadget ⟨toBits R L y⟩ api).1 = [] ∧
    (ReducedModRCheck.DefineGadget ⟨toBits R L y⟩ api).2.satisfied = api.satisfied ∧
    (ReducedModRCheck.DefineGadget ⟨toBits R L y⟩ (API.empty R)).2.satisfied = true := by
  haveI : Fact (1 < R) := ⟨hR⟩
  have hval : bitsValue (toBits R L y) = y := by
    rw [bitsValue_toBits hR, Nat.mod_eq_of_lt]
    exact lt_trans hy ((BitLen_le_iff R L).1 hL)
  have key : ∀ a : API R,
      (ReducedModRCheck.DefineGadget ⟨toBits R L y⟩ a).1 = [] ∧
      (ReducedModRCheck.DefineGadget ⟨toBits R L y⟩ a).2.satisfied = a.satisfied := by
    intro a
    obtain ⟨f, s, api1, he, hsat, _, hc⟩ := ReducedModRCheck_spec hR (toBits R L y)
      (toBits_bool R L y) (by rw [toBits_length]; exact hL) a
    have hs : s = 1 := by
      rw [hval] at hc
      rcases hc with ⟨hs, _, _⟩ | ⟨_, _, hlt⟩ | ⟨_, _, heq⟩
      · exact hs
      · omega
      · omega
    rw [he]
    simp [hs, hsat]
  refine ⟨toBits_length R L y, hval, (key api).1, (key api).2, ?_⟩
  rw [(key (API.empty R)).2]
  rfl

/-- Witness of C2 at the boundary: modulus `13`, four bits, `y = 12`. -/
theorem ReducedModRCheck_accepts_reduced_witness :
    (1 < 13 ∧ BitLen 13 ≤ 4 ∧ 12 < 13) ∧
    (toBits 13 4 12).length = 4 ∧ bitsValue (toBits 13 4 12) = 12 ∧
    (ReducedModRCheck.DefineGadget ⟨toBits 13 4 12⟩ (API.empty 13)).1 = [] ∧
    (ReducedModRCheck.DefineGadget ⟨toBits 13 4 12⟩ (API.empty 13)).2.satisfied =
      (API.empty 13).satisfied ∧
    (ReducedModRCheck.DefineGadget ⟨toBits 13 4 12⟩ (API.empty 13)).2.satisfied = true :=
  ⟨⟨by decide, by decide, by decide⟩,
    ReducedModRCheck_accepts_reduced 13 (by decide) 4 12 (API.empty 13) (by decide) (by decide)⟩


/-! ## The endianness codec -/

theorem SwapBitArrayEndianness_loop_eq {α : Type} (bits : List α) :
    ∀ (k : Nat) (newBits : List α),
      SwapBitArrayEndianness.loop bits (8 * (k : Int) - 8) newBits =
        newBits ++ reversedChunks bits k := by
  intro k
  induction k with
  | zero =>
    intro newBits
    rw [SwapBitArrayEndianness.loop, if_neg (by omega)]
    simp [reversedChunks]
  | succ k ih =>
    intro newBits
    rw [SwapBitArrayEndianness.loop, if_pos (by omega)]
    have h1 : (8 * ((k + 1 : Nat) : Int) - 8).toNat = 8 * k := by omega
    have h2 : 8 * ((k + 1 : Nat) : Int) - 8 - 8 = 8 * (k : Int) - 8 := by omega
    simp only [h1, h2, ih, reversedChunks, List.append_assoc]

theorem reversedChunks_length {α : Type} (bits : List α) :
    ∀ k, 8 * k ≤ bits.length → (reversedChunks bits k).length = 8 * k := by
  intro k
  induction k with
  | zero => intro _; rfl
  | succ k ih =>
    intro h
    simp only [reversedChunks, List.length_append, List.length_take, List.length_drop]
    rw [ih (by omega)]
    omega

theorem reversedChunks_getElem? {α : Type} (bits : List α) :
    ∀ k, 8 * k ≤ bits.length → ∀ c j, c < k → j < 8 →
      (reversedChunks bits k)[8 * c + j]? = bits[8 * (k - 1 - c) + j]? := by
  intro k
  induction k with
  | zero => intro _ c j hc _; omega
  | succ k ih =>
    intro h c j hc hj
    have hlen : ((bits.drop (8 * k)).take 8).length = 8 := by
      simp only [List.length_take, List.length_drop]; omega
    simp only [reversedChunks]
    cases c with
    | zero =>
      rw [List.getElem?_append_left (by omega), List.getElem?_take_of_lt (by omega),
        List.getElem?_drop]
      simp
    | succ c =>
      rw [List.getElem?_append_right (by omega), hlen]
      have e1 : 8 * (c + 1) + j - 8 = 8 * c + j := by omega
      have e2 : k + 1 - 1 - (c + 1) = k - 1 - c := by omega
      rw [e1, e2]
      exact ih (by omega) c j (by omega) hj

theorem reversedChunks_perm {α : Type} (bits : List α) :
    ∀ k, (reversedChunks bits k).Perm (bits.take (8 * k)) := by
  intro k
  induction k with
  | zero => simp [reversedChunks]
  | succ k ih =>
    have e : 8 * (k + 1) = 8 * k + 8 := by omega
    rw [e, List.take_add]
    simp only [reversedChunks]
    exact List.perm_append_comm.trans (List.Perm.append_right _ ih)

theorem SwapBitArrayEndianness_aligned {α : Type} (bits : List α) (n : Nat)
    (h : bits.length = 8 * n) :
    SwapBitArrayEndianness bits = (reversedChunks bits n, none) := by
  have hl := reversedChunks_length bits n (by omega)
  have hloop : SwapBitArrayEndianness.loop bits ((bits.length : Int) - 8) [] =
      reversedChunks bits n := by
    have e : (bits.length : Int) - 8 = 8 * (n : Int) - 8 := by omega
    rw [e, SwapBitArrayEndianness_loop_eq]
    rfl
  unfold SwapBitArrayEndianness
  simp only [hloop, hl]
  rw [if_neg (by omega), if_neg (by omega)]

theorem SwapBitArrayEndianness_unaligned {α : Type} (bits : List α)
    (h : bits.length % 8 ≠ 0) :
    SwapBitArrayEndianness bits = ([], some ⟨bits.length⟩) := by
  unfold SwapBitArrayEndianness
  simp only
  rw [if_pos (by omega)]


theorem reversedChunks_involutive {α : Type} (v : List α) (n : Nat) (h : v.length = 8 * n) :
    reversedChunks (reversedChunks v n) n = v := by
  have hw := reversedChunks_length v n (by omega)
  have hu := reversedChunks_length (reversedChunks v n) n (by omega)
  apply List.ext_getElem?
  intro i
  by_cases hi : i < 8 * n
  · have e : i = 8 * (i / 8) + i % 8 := by omega
    have hc : i / 8 < n := by omega
    have hj : i % 8 < 8 := by omega
    rw [e, reversedChunks_getElem? _ n (by omega) _ _ hc hj,
      reversedChunks_getElem? v n (by omega) _ _ (by omega) hj]
    congr 1
    omega
  · rw [List.getElem?_eq_none (by omega), List.getElem?_eq_none (by omega)]

/-- C3. `SwapBitArrayEndianness` is an involution: on a sequence whose length is
a multiple of 8 (the empty sequence included) it returns some `w` with a nil
error, and applied to `w` it returns the original sequence with a nil
error. -/
theorem SwapBitArrayEndianness_involution {α : Type} (v : List α) (h : v.length % 8 = 0) :
    ∃ w, SwapBitArrayEndianness v = (w, none) ∧ SwapBitArrayEndianness w = (v, none) := by
  have hn : v.length = 8 * (v.length / 8) := by omega
  refine ⟨reversedChunks v (v.length / 8), SwapBitArrayEndianness_aligned v _ hn, ?_⟩
  have hw := reversedChunks_length v (v.length / 8) (by omega)
  rw [SwapBitArrayEndianness_aligned _ (v.length / 8) hw,
    reversedChunks_involutive v _ hn]

/-- Witness of C3 on a sequence of two bytes. -/
theorem SwapBitArrayEndianness_involution_witness :
    ([0, 1, 2, 3, 4, 5, 6, 7, 8, 9, 10, 11, 12, 13, 14, 15] : List Nat).length % 8 = 0 ∧
    ∃ w, SwapBitArrayEndianness [0, 1, 2, 3, 4, 5, 6, 7, 8, 9, 10, 11, 12, 13, 14, 15] =
        (w, none) ∧
      SwapBitArrayEndianness w =
        (([0, 1, 2, 3, 4, 5, 6, 7, 8, 9, 10, 11, 12, 13, 14, 15] : List Nat), none) :=
  ⟨by decide, SwapBitArrayEndianness_involution _ (by decide)⟩

/-- C4. `SwapBitArrayEndianness` returns an error if and only if the length of
its input is not a multiple of 8; when it fails the returned slice is nil and
the error is the `bitPatternLengthError` whose `actualLength` is the input
length; when the length is a multiple of 8 the error is nil. -/
theorem SwapBitArrayEndianness_error_iff {α : Type} (bits : List α) :
    ((SwapBitArrayEndianness bits).2 ≠ none ↔ bits.length % 8 ≠ 0) ∧
    (bits.length % 8 ≠ 0 →
      SwapBitArrayEndianness bits = ([], some ⟨(bits.length : Int)⟩)) ∧
    (bits.length % 8 = 0 → (SwapBitArrayEndianness bits).2 = none) := by
  have hal : bits.length % 8 = 0 → (SwapBitArrayEndianness bits).2 = none := by
    intro h
    rw [SwapBitArrayEndianness_aligned bits (bits.length / 8) (by omega)]
  refine ⟨⟨fun he hz => he (hal hz), fun hz => ?_⟩, SwapBitArrayEndianness_unaligned bits, hal⟩
  rw [SwapBitArrayEndianness_unaligned bits hz]
  simp

/-- C5. `SwapBitArrayEndianness` reverses the byte order and keeps the bit
order inside each byte: on an input `v` of length `8 * n` it returns, with a
nil error, a sequence `w` of the same length such that for every byte index
`k < n` and bit offset `j < 8` the element `w[8 * k + j]` is the element
`v[8 * (n - 1 - k) + j]`; and `w` is a permutation of `v`. -/
theorem SwapBitArrayEndianness_reverses_bytes {α : Type} (v : List α) (n : Nat)
    (h : v.length = 8 * n) :
    ∃ w, SwapBitArrayEndianness v = (w, none) ∧ w.length = v.length ∧
      (∀ k j, k < n → j < 8 →
        ∃ x, w[8 * k + j]? = some x ∧ v[8 * (n - 1 - k) + j]? = some x) ∧
      w.Perm v := by
  have hw := reversedChunks_length v n (by omega)
  refine ⟨reversedChunks v n, SwapBitArrayEndianness_aligned v n h, by omega, ?_, ?_⟩
  · intro k j hk hj
    have hlt : 8 * (n - 1 - k) + j < v.length := by omega
    refine ⟨v[8 * (n - 1 - k) + j], ?_, List.getElem?_eq_getElem hlt⟩
    rw [reversedChunks_getElem? v n (by omega) k j hk hj, List.getElem?_eq_getElem hlt]
  · have hp := reversedChunks_perm v n
    rwa [List.take_of_length_le (by omega)] at hp

/-- Witness of C5 on a sequence of two bytes. -/
theorem SwapBitArrayEndianness_reverses_bytes_witness :
    ([0, 1, 2, 3, 4, 5, 6, 7, 8, 9, 10, 11, 12, 13, 14, 15] : List Nat).length = 8 * 2 ∧
    ∃ w, SwapBitArrayEndianness [0, 1, 2, 3, 4, 5, 6, 7, 8, 9, 10, 11, 12, 13, 14, 15] =
        (w, none) ∧
      w.length = ([0, 1, 2, 3, 4, 5, 6, 7, 8, 9, 10, 11, 12, 13, 14, 15] : List Nat).length ∧
      (∀ k j, k < 2 → j < 8 →
        ∃ x, w[8 * k + j]? = some x ∧
          ([0, 1, 2, 3, 4, 5, 6, 7, 8, 9, 10, 11, 12, 13, 14, 15] : List Nat)[8 * (2 - 1 - k) + j]? =
            some x) ∧
      w.Perm [0, 1, 2, 3, 4, 5, 6, 7, 8, 9, 10, 11, 12, 13, 14, 15] :=
  ⟨by decide, SwapBitArrayEndianness_reverses_bytes _ 2 (by decide)⟩


/-! ## The field codec -/

theorem satisfied_foldl_AssertIsBoolean {R : Nat} (bits : List (ZMod R)) :
    ∀ api : API R, (bits.foldl AssertIsBoolean api).satisfied =
      (bits.all (fun v => decide (v = 0 ∨ v = 1)) && api.satisfied) := by
  induction bits with
  | nil => intro api; simp
  | cons b bits ih =>
    intro api
    rw [List.foldl_cons, ih, satisfied_AssertIsBoolean, List.all_cons]
    cases decide (b = 0 ∨ b = 1) <;> simp

theorem ReducedModRCheck_loop_satisfied {R : Nat} (r : ReducedModRCheck R) :
    ∀ k (failed succeeded : ZMod R) (api : API R),
      (ReducedModRCheck.loop r k failed succeeded api).2.2.satisfied = true →
        api.satisfied = true := by
  intro k
  induction k with
  | zero => intro _ _ api h; exact h
  | succ k ih =>
    intro failed succeeded api h
    simp only [ReducedModRCheck.loop, Or, Select, Sub] at h
    split at h
    · have h1 := ih _ _ _ h
      simp only [satisfied_AssertIsBoolean, Bool.and_eq_true] at h1
      exact h1.2.2.2.2
    · have h1 := ih _ _ _ h
      simp only [satisfied_AssertIsBoolean, Bool.and_eq_true] at h1
      exact h1.2.2.2.2

theorem ReducedModRCheck_satisfied {R : Nat} (r : ReducedModRCheck R) (api : API R)
    (h : (ReducedModRCheck.DefineGadget r api).2.satisfied = true) : api.satisfied = true := by
  unfold ReducedModRCheck.DefineGadget at h
  split at h
  · exact h
  · simp only [satisfied_AssertIsEqual, Bool.and_eq_true] at h
    exact ReducedModRCheck_loop_satisfied r _ _ _ _ h.2

theorem ToBinary_nonpos {R : Nat} (api : API R) (v : ZMod R) (size : Int) (w : Nat → ZMod R)
    (h : size ≤ 0) : ToBinary api v size w = none := by
  unfold ToBinary
  rw [if_pos h]

theorem ToReducedBinaryBigEndian_nonpos {R : Nat} (x : ZMod R) (size : Int) (api : API R)
    (w : Nat → ZMod R) (h : size ≤ 0) : ToReducedBinaryBigEndian x size api w = none := by
  unfold ToReducedBinaryBigEndian
  rw [ToBinary_nonpos api x size w h]

theorem ToReducedBinaryBigEndian_pos {R : Nat} (x : ZMod R) (s : Nat) (api : API R)
    (w : Nat → ZMod R) (h : 0 < s) :
    ToReducedBinaryBigEndian x (s : Int) api w =
      some ((SwapBitArrayEndianness ((List.range s).map w)).1,
        (SwapBitArrayEndianness ((List.range s).map w)).2,
        (ReducedModRCheck.DefineGadget ⟨(List.range s).map w⟩
          (AssertIsEqual (((List.range s).map w).foldl AssertIsBoolean api)
            (recompose ((List.range s).map w)) x)).2) := by
  have hpos : ¬ ((s : Int) ≤ 0) := by omega
  simp only [ToReducedBinaryBigEndian, ToBinary, if_neg hpos, Int.toNat_ofNat]

theorem FromBinaryBigEndian_aligned {R : Nat} (bitsBigEndian bitsLittleEndian : List (ZMod R))
    (api : API R) (hne : bitsLittleEndian.length ≠ 0)
    (h : SwapBitArrayEndianness bitsBigEndian = (bitsLittleEndian, none)) :
    FromBinaryBigEndian bitsBigEndian api =
      some (some (recompose bitsLittleEndian), none,
        bitsLittleEndian.foldl AssertIsBoolean api) := by
  simp only [FromBinaryBigEndian, h, FromBinary, if_neg hne]

/-- C6. Round trip of the field codec: for a size `s` that is a multiple of 8
(and at least the bit length of the modulus), if `ToReducedBinaryBigEndian(x, s)`
returns and its constraints are satisfied under the assignment `w` of the
decomposition bits, then the function returns with a nil error under every
assignment, and `FromBinaryBigEndian` of the big-endian bits it returned
under `w` gives back `x` with a nil error and leaves the builder satisfied. -/
theorem codec_round_trip (R : Nat) (x : ZMod R) (s : Nat) (api : API R) (w : Nat → ZMod R)
    (hs : s % 8 = 0) (_hL : BitLen R ≤ s)
    (hsat : (ToReducedBinaryBigEndian x (s : Int) api w).map (fun r => r.2.2.satisfied) =
      some true) :
    (∀ (api0 : API R) (w0 : Nat → ZMod R),
      (ToReducedBinaryBigEndian x (s : Int) api0 w0).map (fun r => r.2.1) = some none) ∧
    ∃ bitsBigEndian api1 api2,
      ToReducedBinaryBigEndian x (s : Int) api w = some (bitsBigEndian, none, api1) ∧
      FromBinaryBigEndian bitsBigEndian api1 = some (some x, none, api2) ∧
      api2.satisfied = true := by
  have hpos : 0 < s := by
    rcases Nat.eq_zero_or_pos s with h0 | h0
    · subst h0
      rw [ToReducedBinaryBigEndian_nonpos x _ api w (by simp)] at hsat
      simp at hsat
    · exact h0
  have hswap : ∀ w1 : Nat → ZMod R,
      SwapBitArrayEndianness ((List.range s).map w1) =
        (reversedChunks ((List.range s).map w1) (s / 8), none) := by
    intro w1
    exact SwapBitArrayEndianness_aligned _ _ (by simp; omega)
  constructor
  · intro api0 w0
    rw [ToReducedBinaryBigEndian_pos x s api0 w0 hpos, hswap w0]
    rfl
  · rw [ToReducedBinaryBigEndian_pos x s api w hpos, hswap w] at hsat ⊢
    simp only [Option.map_some', Option.some.injEq] at hsat
    have h1 := ReducedModRCheck_satisfied _ _ hsat
    simp only [satisfied_AssertIsEqual, satisfied_foldl_AssertIsBoolean, Bool.and_eq_true,
      decide_eq_true_eq] at h1
    have hlen := reversedChunks_length ((List.range s).map w) (s / 8) (by simp; omega)
    have hback := SwapBitArrayEndianness_aligned _ (s / 8) hlen
    rw [reversedChunks_involutive _ (s / 8) (by simp; omega)] at hback
    have hne : ((List.range s).map w).length ≠ 0 := by simp; omega
    generalize (ReducedModRCheck.DefineGadget ⟨(List.range s).map w⟩
      (AssertIsEqual (((List.range s).map w).foldl AssertIsBoolean api)
        (recompose ((List.range s).map w)) x)).2 = apiEnc at hsat ⊢
    refine ⟨reversedChunks ((List.range s).map w) (s / 8), apiEnc,
      ((List.range s).map w).foldl AssertIsBoolean apiEnc, rfl, ?_, ?_⟩
    · rw [FromBinaryBigEndian_aligned _ _ _ hne hback, h1.1]
    · rw [satisfied_foldl_AssertIsBoolean, h1.2.1, hsat]
      rfl

/-- Witness of C6: modulus `13`, value `5` on one byte, the assignment being
the binary expansion of `5`. -/
theorem codec_round_trip_witness :
    (8 % 8 = 0 ∧ BitLen 13 ≤ 8 ∧
      (ToReducedBinaryBigEndian (5 : ZMod 13) ((8 : Nat) : Int) (API.empty 13)
        (fun i => ((5 / 2 ^ i % 2 : Nat) : ZMod 13))).map (fun r => r.2.2.satisfied) =
        some true) ∧
    ((∀ (api0 : API 13) (w0 : Nat → ZMod 13),
      (ToReducedBinaryBigEndian (5 : ZMod 13) ((8 : Nat) : Int) api0 w0).map
        (fun r => r.2.1) = some none) ∧
    ∃ bitsBigEndian api1 api2,
      ToReducedBinaryBigEndian (5 : ZMod 13) ((8 : Nat) : Int) (API.empty 13)
        (fun i => ((5 / 2 ^ i % 2 : Nat) : ZMod 13)) = some (bitsBigEndian, none, api1) ∧
      FromBinaryBigEndian bitsBigEndian api1 = some (some 5, none, api2) ∧
      api2.satisfied = true) :=
  ⟨⟨by decide, by decide, by decide⟩,
    codec_round_trip 13 5 8 (API.empty 13) _ (by decide) (by decide) (by decide)⟩

/-! ## The Merkle path gadgets -/

theorem ProofRound_DefineGadget_eq {R : Nat} (compress : ZMod R → ZMod R → ZMod R)
    (gadget : ProofRound R) (api : API R) :
    ProofRound.DefineGadget compress gadget api =
      some ([compress (gadget.Sibling + gadget.Direction * (gadget.Hash - gadget.Sibling))
              (gadget.Hash + gadget.Direction * (gadget.Sibling - gadget.Hash))],
        ⟨Constraint.isBoolean gadget.Direction :: Constraint.isBoolean gadget.Direction ::
            Constraint.isBoolean gadget.Direction :: api.constraints,
          (gadget.Sibling + gadget.Direction * (gadget.Hash - gadget.Sibling),
            gadget.Hash + gadget.Direction * (gadget.Sibling - gadget.Hash)) :: api.calls⟩) :=
  rfl

/-- C8, as the code has it. `ProofRound` hands `Hash` to the compression
function as the left input when `Direction = 1` and as the right input when
`Direction = 0`: for all field elements `hash` and `sibling`,
`ProofRound` with `Direction = 0` returns `compress(sibling, hash)` and with
`Direction = 1` returns `compress(hash, sibling)`, where `api.Select(b, x, y)`
is `x` when `b = 1` and `y` when `b = 0`. -/
theorem ProofRound_orders_inputs (R : Nat) (compress : ZMod R → ZMod R → ZMod R)
    (hash sibling : ZMod R) (api : API R) :
    (ProofRound.DefineGadget compress ⟨0, hash, sibling⟩ api).map Prod.fst =
      some [compress sibling hash] ∧
    (ProofRound.DefineGadget compress ⟨1, hash, sibling⟩ api).map Prod.fst =
      some [compress hash sibling] ∧
    (Select api 1 hash sibling).1 = hash ∧ (Select api 0 hash sibling).1 = sibling := by
  simp [ProofRound_DefineGadget_eq, Select]

/-- C8 fails as stated: over the field of `7` elements with the compression
`a + 2 * b`, `ProofRound` with `Direction = 0`, `Hash = 1`, `Sibling = 2`
returns `compress(2, 1) = 4`, not `compress(1, 2) = 5`, and with
`Direction = 1` it returns `compress(1, 2) = 5`, not `compress(2, 1) = 4`. -/
theorem ProofRound_direction_zero_counterexample :
    ¬ ((ProofRound.DefineGadget sampleCompress7 ⟨0, 1, 2⟩ (API.empty 7)).map Prod.fst =
          some [sampleCompress7 1 2] ∧
        (ProofRound.DefineGadget sampleCompress7 ⟨1, 1, 2⟩ (API.empty 7)).map Prod.fst =
          some [sampleCompress7 2 1]) ∧
    (ProofRound.DefineGadget sampleCompress7 ⟨0, 1, 2⟩ (API.empty 7)).map Prod.fst = some [4] ∧
    sampleCompress7 1 2 = 5 ∧
    (ProofRound.DefineGadget sampleCompress7 ⟨1, 1, 2⟩ (API.empty 7)).map Prod.fst = some [5] ∧
    sampleCompress7 2 1 = 4 := by
  decide


theorem ProofRound_DefineGadget_some {R : Nat} (compress : ZMod R → ZMod R → ZMod R)
    (gadget : ProofRound R) (api : API R) :
    ∃ v api1, ProofRound.DefineGadget compress gadget api = some ([v], api1) :=
  ⟨_, _, ProofRound_DefineGadget_eq compress gadget api⟩

theorem foldRounds_succ_eq {R : Nat} (compress : ZMod R → ZMod R → ZMod R)
    (wire : ZMod R → ZMod R → ZMod R → ProofRound R) (gadget : VerifyProof R) (api : API R)
    (i : Nat) (running element direction v : ZMod R) (api1 api2 : API R)
    (h : foldRounds compress wire gadget api i = some (running, api1))
    (he : gadget.Proof[i + 1]? = some element) (hd : gadget.Path[i]? = some direction)
    (hv : ProofRound.DefineGadget compress (wire direction running element) api1 =
      some ([v], api2)) :
    foldRounds compress wire gadget api (i + 1) = some (v, api2) := by
  simp only [foldRounds, h, he, hd, hv]
  rfl

theorem VerifyProof_loop_eq {R : Nat} (compress : ZMod R → ZMod R → ZMod R)
    (gadget : VerifyProof R) (api : API R) (D : Nat) (hP : gadget.Proof.length = D + 1)
    (hPath : gadget.Path.length = D) :
    ∀ k, k ≤ D → ∀ (sum : ZMod R) (api1 : API R),
      foldRounds compress (fun direction running element => ⟨direction, element, running⟩)
        gadget api (D - k) = some (sum, api1) →
      VerifyProof.loop compress gadget k sum api1 =
        foldRounds compress (fun direction running element => ⟨direction, element, running⟩)
          gadget api D := by
  intro k
  induction k with
  | zero => intro _ sum api1 h; rw [Nat.sub_zero] at h; rw [h]; rfl
  | succ k ih =>
    intro hk sum api1 h
    have hi : gadget.Proof.length - (k + 1) = D - (k + 1) + 1 := by omega
    have hd : gadget.Path[D - (k + 1)]? = some gadget.Path[D - (k + 1)] :=
      List.getElem?_eq_getElem (by omega)
    have he : gadget.Proof[D - (k + 1) + 1]? = some gadget.Proof[D - (k + 1) + 1] :=
      List.getElem?_eq_getElem (by omega)
    obtain ⟨v, api2, hv⟩ := ProofRound_DefineGadget_some compress
      ⟨gadget.Path[D - (k + 1)], gadget.Proof[D - (k + 1) + 1], sum⟩ api1
    have hnext := foldRounds_succ_eq compress
      (fun direction running element => ⟨direction, element, running⟩) gadget api
      (D - (k + 1)) sum _ _ v api1 api2 h he hd hv
    have e : D - (k + 1) + 1 = D - k := by omega
    rw [← ih (by omega) v api2 (by rw [← e]; exact hnext)]
    simp only [VerifyProof.loop, hi, Nat.add_sub_cancel, hd, he, hv]
    rfl

theorem VerifyProof_eq_siblingFold {R : Nat} (compress : ZMod R → ZMod R → ZMod R)
    (gadget : VerifyProof R) (api : API R) (D : Nat) (hP : gadget.Proof.length = D + 1)
    (hPath : gadget.Path.length = D) :
    VerifyProof.DefineGadget compress gadget api = VerifyProof.siblingFold compress gadget api := by
  have h0 : gadget.Proof[0]? = some gadget.Proof[0] := List.getElem?_eq_getElem (by omega)
  have hl : gadget.Proof.length - 1 = D := by omega
  have hstart : foldRounds compress (fun direction running element => ⟨direction, element, running⟩)
      gadget api (D - D) = some (gadget.Proof[0], api) := by
    rw [Nat.sub_self]
    simp only [foldRounds, h0]
  have hloop := VerifyProof_loop_eq compress gadget api D hP hPath D le_rfl _ _ hstart
  simp only [VerifyProof.DefineGadget, VerifyProof.siblingFold, h0, hl, hloop]


theorem selected_pair_eq {R : Nat} (d sum e : ZMod R) (hd : d = 0 ∨ d = 1) :
    (sum + d * (e - sum), e + d * (sum - e)) = if d = 0 then (sum, e) else (e, sum) := by
  rcases hd with hd | hd
  · subst hd; simp
  · subst hd
    by_cases h : (1 : ZMod R) = 0
    · haveI : Subsingleton (ZMod R) := subsingleton_of_zero_eq_one h.symm
      exact Subsingleton.elim _ _
    · simp [h]

theorem run_succ_eq {R : Nat} (compress : ZMod R → ZMod R → ZMod R) (Proof Path : List (ZMod R))
    (i : Nat) :
    run compress Proof Path (i + 1) =
      compress (roundInputs compress Proof Path i).1 (roundInputs compress Proof Path i).2 := by
  simp only [run, roundInputs]
  split <;> rfl

theorem foldRounds_run {R : Nat} (compress : ZMod R → ZMod R → ZMod R)
    (Proof Path : List (ZMod R)) (api : API R) (D : Nat) (hP : Proof.length = D + 1)
    (hPath : Path.length = D) (hbool : ∀ d ∈ Path, d = 0 ∨ d = 1) :
    ∀ i, i ≤ D → ∃ api1,
      foldRounds compress (fun direction running element => ⟨direction, element, running⟩)
        ⟨Proof, Path⟩ api i = some (run compress Proof Path i, api1) ∧
      api1.satisfied = api.satisfied ∧
      api1.calls = (List.range i).reverse.map (roundInputs compress Proof Path) ++ api.calls := by
  intro i
  induction i with
  | zero =>
    intro _
    have h0 : Proof[0]? = some Proof[0] := List.getElem?_eq_getElem (by omega)
    refine ⟨api, ?_, rfl, by simp⟩
    simp only [foldRounds, h0, run, List.getD_eq_getElem?_getD, Option.getD_some]
  | succ i ih =>
    intro hi
    obtain ⟨api1, hfold, hsat, hcalls⟩ := ih (by omega)
    have hd : Path[i]? = some Path[i] := List.getElem?_eq_getElem (by omega)
    have he : Proof[i + 1]? = some Proof[i + 1] := List.getElem?_eq_getElem (by omega)
    have hdb : Path[i] = 0 ∨ Path[i] = 1 := hbool _ (List.getElem_mem _)
    have hgd : Path.getD i 0 = Path[i] := List.getD_eq_getElem _ _ (by omega)
    have hge : Proof.getD (i + 1) 0 = Proof[i + 1] := List.getD_eq_getElem _ _ (by omega)
    have hpair := selected_pair_eq Path[i] (run compress Proof Path i) Proof[i + 1] hdb
    have hin : roundInputs compress Proof Path i =
        (run compress Proof Path i + Path[i] * (Proof[i + 1] - run compress Proof Path i),
          Proof[i + 1] + Path[i] * (run compress Proof Path i - Proof[i + 1])) := by
      rw [hpair, roundInputs, hgd, hge]
    have hv : ProofRound.DefineGadget compress
        ⟨Path[i], Proof[i + 1], run compress Proof Path i⟩ api1 =
        some ([run compress Proof Path (i + 1)],
          ⟨Constraint.isBoolean Path[i] :: Constraint.isBoolean Path[i] ::
              Constraint.isBoolean Path[i] :: api1.constraints,
            roundInputs compress Proof Path i :: api1.calls⟩) := by
      rw [ProofRound_DefineGadget_eq, run_succ_eq, hin]
    have hnext := foldRounds_succ_eq compress
      (fun direction running element => ⟨direction, element, running⟩) ⟨Proof, Path⟩ api
      i _ _ _ _ api1 _ hfold he hd hv
    refine ⟨_, hnext, ?_, ?_⟩
    · rw [← hsat]
      simp [API.satisfied, Constraint.holds, hdb]
    · simp only [List.range_succ, List.reverse_append, List.reverse_cons, List.reverse_nil,
        List.nil_append, List.singleton_append, List.map_cons, List.cons_append, hcalls]


theorem VerifyProof_run {R : Nat} (compress : ZMod R → ZMod R → ZMod R)
    (Proof Path : List (ZMod R)) (api : API R) (D : Nat) (hP : Proof.length = D + 1)
    (hPath : Path.length = D) (hbool : ∀ d ∈ Path, d = 0 ∨ d = 1) :
    ∃ api1, VerifyProof.DefineGadget compress ⟨Proof, Path⟩ api =
        some ([run compress Proof Path D], api1) ∧
      api1.satisfied = api.satisfied ∧
      api1.calls = (List.range D).reverse.map (roundInputs compress Proof Path) ++ api.calls := by
  obtain ⟨api1, hfold, hsat, hcalls⟩ :=
    foldRounds_run compress Proof Path api D hP hPath hbool D le_rfl
  refine ⟨api1, ?_, hsat, hcalls⟩
  have hl : Proof.length - 1 = D := by omega
  rw [VerifyProof_eq_siblingFold compress ⟨Proof, Path⟩ api D hP hPath]
  simp only [VerifyProof.siblingFold, hl, hfold]

/-- C7. `VerifyProof` folds the path with the rule that direction bit `0` puts
the current value on the left: for a `Proof` of length `D + 1` and a boolean
`Path` of length `D` it returns the single value `run_D`, where
`run_0 = Proof[0]` and `run_i` is `compress(run_(i-1), Proof[i])` when
`Path[i-1] = 0` and `compress(Proof[i], run_(i-1))` otherwise, and every
constraint it adds holds.  In particular on `Proof = [5, s0, s1]` and
`Path = [0, 1]` it returns `compress(s1, compress(5, s0))`. -/
theorem VerifyProof_folds_path (R : Nat) (compress : ZMod R → ZMod R → ZMod R)
    (Proof Path : List (ZMod R)) (D : Nat) (api : API R) (hP : Proof.length = D + 1)
    (hPath : Path.length = D) (hbool : ∀ d ∈ Path, d = 0 ∨ d = 1) :
    (∃ api1, VerifyProof.DefineGadget compress ⟨Proof, Path⟩ api =
        some ([run compress Proof Path D], api1) ∧ api1.satisfied = api.satisfied) ∧
    (∀ (s0 s1 : ZMod R) (api0 : API R),
      (VerifyProof.DefineGadget compress ⟨[5, s0, s1], [0, 1]⟩ api0).map Prod.fst =
        some [compress s1 (compress 5 s0)]) := by
  constructor
  · obtain ⟨api1, h, hsat, _⟩ := VerifyProof_run compress Proof Path api D hP hPath hbool
    exact ⟨api1, h, hsat⟩
  · intro s0 s1 api0
    simp [VerifyProof.DefineGadget, VerifyProof.loop, ProofRound_DefineGadget_eq]

/-- Witness of C7: the field of `7` elements, `Proof = [5, 1, 2]`,
`Path = [0, 1]`. -/
theorem VerifyProof_folds_path_witness :
    (([5, 1, 2] : List (ZMod 7)).length = 2 + 1 ∧ ([0, 1] : List (ZMod 7)).length = 2 ∧
      ∀ d ∈ ([0, 1] : List (ZMod 7)), d = 0 ∨ d = 1) ∧
    ((∃ api1, VerifyProof.DefineGadget sampleCompress7 ⟨[5, 1, 2], [0, 1]⟩ (API.empty 7) =
        some ([run sampleCompress7 [5, 1, 2] [0, 1] 2], api1) ∧
        api1.satisfied = (API.empty 7).satisfied) ∧
    (∀ (s0 s1 : ZMod 7) (api0 : API 7),
      (VerifyProof.DefineGadget sampleCompress7 ⟨[5, s0, s1], [0, 1]⟩ api0).map Prod.fst =
        some [sampleCompress7 s1 (sampleCompress7 5 s0)])) :=
  ⟨⟨by decide, by decide, by decide⟩,
    VerifyProof_folds_path 7 sampleCompress7 [5, 1, 2] [0, 1] 2 (API.empty 7)
      (by decide) (by decide) (by decide)⟩

theorem compressionCalls_eq {R : Nat} (compress : ZMod R → ZMod R → ZMod R)
    (Proof Path : List (ZMod R)) (D : Nat) (hP : Proof.length = D + 1)
    (hPath : Path.length = D) (hbool : ∀ d ∈ Path, d = 0 ∨ d = 1) :
    compressionCalls compress Proof Path =
      (List.range D).reverse.map (roundInputs compress Proof Path) := by
  obtain ⟨api1, h, _, hcalls⟩ :=
    VerifyProof_run compress Proof Path (API.empty R) D hP hPath hbool
  unfold compressionCalls
  rw [h]
  simp only [hcalls, API.empty, List.append_nil]

theorem roundInputs_mem_compressionCalls {R : Nat} (compress : ZMod R → ZMod R → ZMod R)
    (Proof Path : List (ZMod R)) (D : Nat) (hP : Proof.length = D + 1)
    (hPath : Path.length = D) (hbool : ∀ d ∈ Path, d = 0 ∨ d = 1) (i : Nat) (hi : i < D) :
    roundInputs compress Proof Path i ∈ compressionCalls compress Proof Path := by
  rw [compressionCalls_eq compress Proof Path D hP hPath hbool]
  exact List.mem_map.2 ⟨i, by simpa using hi, rfl⟩

theorem roundInputs_eq_imp {R : Nat} (compress : ZMod R → ZMod R → ZMod R)
    (P Q Path : List (ZMod R)) (i : Nat)
    (h : roundInputs compress P Path i = roundInputs compress Q Path i) :
    run compress P Path i = run compress Q Path i ∧ P.getD (i + 1) 0 = Q.getD (i + 1) 0 := by
  simp only [roundInputs] at h
  split at h
  · exact ⟨(Prod.mk.inj h).1, (Prod.mk.inj h).2⟩
  · exact ⟨(Prod.mk.inj h).2, (Prod.mk.inj h).1⟩

theorem run_ne_of_altered {R : Nat} (compress : ZMod R → ZMod R → ZMod R)
    (P Q Path : List (ZMod R)) (D k : Nat) (hP : P.length = D + 1) (hQ : Q.length = D + 1)
    (hPath : Path.length = D) (hbool : ∀ d ∈ Path, d = 0 ∨ d = 1)
    (hk : P.getD k 0 ≠ Q.getD k 0) (hsame : ∀ j, j ≠ k → P.getD j 0 = Q.getD j 0)
    (hinj : ∀ p ∈ compressionCalls compress P Path, ∀ q ∈ compressionCalls compress Q Path,
      compress p.1 p.2 = compress q.1 q.2 → p = q) :
    ∀ i, k ≤ i → i ≤ D → run compress P Path i ≠ run compress Q Path i := by
  intro i
  induction i with
  | zero =>
    intro h0 _
    have e : k = 0 := by omega
    subst e
    exact hk
  | succ i ih =>
    intro hki hiD heq
    rw [run_succ_eq, run_succ_eq] at heq
    have hpair := hinj _
      (roundInputs_mem_compressionCalls compress P Path D hP hPath hbool i (by omega)) _
      (roundInputs_mem_compressionCalls compress Q Path D hQ hPath hbool i (by omega)) heq
    have hboth := roundInputs_eq_imp compress P Q Path i hpair
    by_cases hlt : k ≤ i
    · exact ih hlt (by omega) hboth.1
    · have e : k = i + 1 := by omega
      subst e
      exact hk hboth.2

theorem run_ne_of_altered_position {R : Nat} (compress : ZMod R → ZMod R → ZMod R)
    (D k : Nat) (P Q Path : List (ZMod R)) (hP : P.length = D + 1) (hQ : Q.length = D + 1)
    (hPath : Path.length = D) (hbool : ∀ d ∈ Path, d = 0 ∨ d = 1)
    (hk : P[k]? ≠ Q[k]?) (hsame : ∀ j, j ≠ k → P[j]? = Q[j]?)
    (hinj : ∀ p ∈ compressionCalls compress P Path, ∀ q ∈ compressionCalls compress Q Path,
      compress p.1 p.2 = compress q.1 q.2 → p = q) :
    run compress P Path D ≠ run compress Q Path D := by
  have hkD : k ≤ D := by
    by_contra hc
    apply hk
    rw [List.getElem?_eq_none (by omega), List.getElem?_eq_none (by omega)]
  have hk1 : P.getD k 0 ≠ Q.getD k 0 := by
    intro h
    apply hk
    rw [List.getElem?_eq_getElem (by omega), List.getElem?_eq_getElem (by omega)]
    rw [List.getD_eq_getElem _ _ (by omega), List.getD_eq_getElem _ _ (by omega)] at h
    rw [h]
  have hsame1 : ∀ j, j ≠ k → P.getD j 0 = Q.getD j 0 := by
    intro j hj
    rw [List.getD_eq_getElem?_getD, List.getD_eq_getElem?_getD, hsame j hj]
  exact run_ne_of_altered compress P Q Path D k hP hQ hPath hbool hk1 hsame1 hinj D hkD le_rfl

/-- Altered-sibling detection under the idealised assumption that the
compression function is injective on all pairs.  That assumption implies
injectivity on the pairs of the two runs, which is all the argument uses and
which, unlike injectivity on all pairs, a function on a finite field can
have. -/
theorem VerifyProof_altered_sibling_of_injective (R : Nat)
    (compress : ZMod R → ZMod R → ZMod R) (D k : Nat) (P Q Path : List (ZMod R)) (api : API R)
    (hP : P.length = D + 1) (hQ : Q.length = D + 1) (hPath : Path.length = D)
    (hbool : ∀ d ∈ Path, d = 0 ∨ d = 1) (hk : P[k]? ≠ Q[k]?)
    (hsame : ∀ j, j ≠ k → P[j]? = Q[j]?)
    (hinj : ∀ a b c d, compress a b = compress c d → a = c ∧ b = d) :
    VerifyProof.DefineGadget compress ⟨P, Path⟩ api ≠
      VerifyProof.DefineGadget compress ⟨Q, Path⟩ api := by
  obtain ⟨api1, h1, _, _⟩ := VerifyProof_run compress P Path api D hP hPath hbool
  obtain ⟨api2, h2, _, _⟩ := VerifyProof_run compress Q Path api D hQ hPath hbool
  have hne := run_ne_of_altered_position compress D k P Q Path hP hQ hPath hbool hk hsame
    (fun p _ q _ h => Prod.ext (hinj _ _ _ _ h).1 (hinj _ _ _ _ h).2)
  rw [h1, h2]
  intro h
  simp only [Option.some.injEq, Prod.mk.injEq, List.cons.injEq] at h
  exact hne h.1.1

/-- C10. Altered-sibling detection: for a depth `D`, a boolean `Path` of
length `D` and two proofs `P` and `Q` of length `D + 1` that differ in exactly
one position `k` (the leaf or a sibling), if the compression function is
injective on the input pairs it receives in the two runs (as it is when it is
injective on all pairs), then `VerifyProof` returns a value on each proof and
the two values differ.  The witness is the depth-3 path of leaf `L3`,
`Path = [1, 1, 0]`. -/
theorem VerifyProof_detects_altered_sibling (R : Nat) (compress : ZMod R → ZMod R → ZMod R)
    (D k : Nat) (P Q Path : List (ZMod R)) (api : API R) (hP : P.length = D + 1)
    (hQ : Q.length = D + 1) (hPath : Path.length = D) (hbool : ∀ d ∈ Path, d = 0 ∨ d = 1)
    (hk : P[k]? ≠ Q[k]?) (hsame : ∀ j, j ≠ k → P[j]? = Q[j]?)
    (hinj : ∀ p ∈ compressionCalls compress P Path, ∀ q ∈ compressionCalls compress Q Path,
      compress p.1 p.2 = compress q.1 q.2 → p = q) :
    ∃ out1 out2 api1 api2,
      VerifyProof.DefineGadget compress ⟨P, Path⟩ api = some ([out1], api1) ∧
      VerifyProof.DefineGadget compress ⟨Q, Path⟩ api = some ([out2], api2) ∧
      out1 ≠ out2 ∧
      VerifyProof.DefineGadget compress ⟨P, Path⟩ api ≠
        VerifyProof.DefineGadget compress ⟨Q, Path⟩ api := by
  obtain ⟨api1, h1, _, _⟩ := VerifyProof_run compress P Path api D hP hPath hbool
  obtain ⟨api2, h2, _, _⟩ := VerifyProof_run compress Q Path api D hQ hPath hbool
  have hne := run_ne_of_altered_position compress D k P Q Path hP hQ hPath hbool hk hsame hinj
  refine ⟨_, _, api1, api2, h1, h2, hne, ?_⟩
  rw [h1, h2]
  intro h
  simp only [Option.some.injEq, Prod.mk.injEq, List.cons.injEq] at h
  exact hne h.1.1

/-- Witness of C10: the field of `7` elements with the compression
`a + 2 * b`, the depth-3 path `[1, 1, 0]` of leaf `L3`, and the first sibling
altered from `2` to `4`. -/
theorem VerifyProof_detects_altered_sibling_witness :
    (([1, 2, 3, 6] : List (ZMod 7)).length = 3 + 1 ∧
      ([1, 4, 3, 6] : List (ZMod 7)).length = 3 + 1 ∧
      ([1, 1, 0] : List (ZMod 7)).length = 3 ∧
      (∀ d ∈ ([1, 1, 0] : List (ZMod 7)), d = 0 ∨ d = 1) ∧
      ([1, 2, 3, 6] : List (ZMod 7))[1]? ≠ ([1, 4, 3, 6] : List (ZMod 7))[1]? ∧
      (∀ j, j ≠ 1 → ([1, 2, 3, 6] : List (ZMod 7))[j]? = ([1, 4, 3, 6] : List (ZMod 7))[j]?) ∧
      (∀ p ∈ compressionCalls sampleCompress7 [1, 2, 3, 6] [1, 1, 0],
        ∀ q ∈ compressionCalls sampleCompress7 [1, 4, 3, 6] [1, 1, 0],
          sampleCompress7 p.1 p.2 = sampleCompress7 q.1 q.2 → p = q)) ∧
    ∃ out1 out2 api1 api2,
      VerifyProof.DefineGadget sampleCompress7 ⟨[1, 2, 3, 6], [1, 1, 0]⟩ (API.empty 7) =
        some ([out1], api1) ∧
      VerifyProof.DefineGadget sampleCompress7 ⟨[1, 4, 3, 6], [1, 1, 0]⟩ (API.empty 7) =
        some ([out2], api2) ∧
      out1 ≠ out2 ∧
      VerifyProof.DefineGadget sampleCompress7 ⟨[1, 2, 3, 6], [1, 1, 0]⟩ (API.empty 7) ≠
        VerifyProof.DefineGadget sampleCompress7 ⟨[1, 4, 3, 6], [1, 1, 0]⟩ (API.empty 7) :=
  have hsame : ∀ j, j ≠ 1 →
      ([1, 2, 3, 6] : List (ZMod 7))[j]? = ([1, 4, 3, 6] : List (ZMod 7))[j]? := by
    intro j hj
    match j, hj with
    | 0, _ => rfl
    | 1, h => exact absurd rfl h
    | 2, _ => rfl
    | 3, _ => rfl
    | _ + 4, _ => rfl
  ⟨⟨by decide, by decide, by decide, by decide, by decide, hsame, by decide⟩,
    VerifyProof_detects_altered_sibling 7 sampleCompress7 3 1 [1, 2, 3, 6] [1, 4, 3, 6]
      [1, 1, 0] (API.empty 7) (by decide) (by decide) (by decide) (by decide) (by decide)
      hsame (by decide)⟩

/-! ## The range check: short inputs and booleanness -/

theorem val_le_one_of_bool {R : Nat} (b : ZMod R) (hb : b = 0 ∨ b = 1) : b.val ≤ 1 := by
  rcases hb with hb | hb
  · rw [hb, ZMod.val_zero]; exact Nat.zero_le 1
  · rw [hb, ZMod.val_one_eq_one_mod]
    exact Nat.mod_le 1 R

theorem bitsValue_lt_two_pow {R : Nat} (bits : List (ZMod R))
    (hbool : ∀ b ∈ bits, b = 0 ∨ b = 1) : bitsValue bits < 2 ^ bits.length := by
  induction bits with
  | nil => simp [bitsValue]
  | cons b bits ih =>
    have hb := val_le_one_of_bool b (hbool b (List.mem_cons_self _ _))
    have hrec := ih (fun c hc => hbool c (List.mem_cons_of_mem _ hc))
    show b.val + 2 * bitsValue bits < 2 ^ (bits.length + 1)
    rw [pow_succ]
    omega

/-- C13. `ReducedModRCheck` is a no-op on short inputs: on an input shorter
than the bit length of the modulus `R` the gadget returns an empty result and
leaves the builder as it was, adding no constraint, whatever the values of the
elements are; and a boolean vector of that length encodes a value below
`R`. -/
theorem ReducedModRCheck_short_input (R : Nat) (Input : List (ZMod R)) (api : API R)
    (hL : Input.length < BitLen R) :
    ReducedModRCheck.DefineGadget ⟨Input⟩ api = ([], api) ∧
    ((∀ b ∈ Input, b = 0 ∨ b = 1) → bitsValue Input < R) := by
  constructor
  · unfold ReducedModRCheck.DefineGadget
    rw [if_pos hL]
  · intro hbool
    have h1 := bitsValue_lt_two_pow Input hbool
    have h2 : 2 ^ Input.length ≤ R := by
      by_contra hc
      have := (BitLen_le_iff R Input.length).2 (by omega)
      omega
    omega

/-- Witness of C13: modulus `13` of bit length `4`, an input of three elements
that are not boolean. -/
theorem ReducedModRCheck_short_input_witness :
    ([5, 7, 2] : List (ZMod 13)).length < BitLen 13 ∧
    (ReducedModRCheck.DefineGadget ⟨[5, 7, 2]⟩ (API.empty 13) = ([], API.empty 13) ∧
    ((∀ b ∈ ([5, 7, 2] : List (ZMod 13)), b = 0 ∨ b = 1) →
      bitsValue ([5, 7, 2] : List (ZMod 13)) < 13)) :=
  ⟨by decide, ReducedModRCheck_short_input 13 [5, 7, 2] (API.empty 13) (by decide)⟩

theorem ReducedModRCheck_loop_asserts {R : Nat} (r : ReducedModRCheck R) :
    ∀ k (failed succeeded : ZMod R) (api : API R),
      (ReducedModRCheck.loop r k failed succeeded api).2.2.satisfied = true →
        ∀ i, i < k → (r.Input.getD i 0 = 0 ∨ r.Input.getD i 0 = 1) := by
  intro k
  induction k with
  | zero => intro _ _ _ _ i hi; omega
  | succ k ih =>
    intro failed succeeded api h i hi
    simp only [ReducedModRCheck.loop, Or, Select, Sub] at h
    have hk : r.Input.getD k 0 = 0 ∨ r.Input.getD k 0 = 1 := by
      split at h
      · have h1 := ReducedModRCheck_loop_satisfied r _ _ _ _ h
        simp only [satisfied_AssertIsBoolean, Bool.and_eq_true, decide_eq_true_eq] at h1
        exact h1.2.2.2.1
      · have h1 := ReducedModRCheck_loop_satisfied r _ _ _ _ h
        simp only [satisfied_AssertIsBoolean, Bool.and_eq_true, decide_eq_true_eq] at h1
        exact h1.2.2.2.1
    by_cases hik : i = k
    · rw [hik]; exact hk
    · split at h
      · exact ih _ _ _ h i (by omega)
      · exact ih _ _ _ h i (by omega)

/-- C17. `ReducedModRCheck` enforces booleanness itself: on an input at least
as long as the bit length of the modulus, if some element is neither `0` nor
`1` then the constraints are unsatisfied, whatever the other elements and the
builder before the gadget are. -/
theorem ReducedModRCheck_rejects_non_boolean (R : Nat) (Input : List (ZMod R)) (api : API R)
    (hL : BitLen R ≤ Input.length) (hnb : ∃ b ∈ Input, ¬ (b = 0 ∨ b = 1)) :
    (ReducedModRCheck.DefineGadget ⟨Input⟩ api).2.satisfied = false := by
  obtain ⟨b, hb, hnot⟩ := hnb
  obtain ⟨i, hi, rfl⟩ := List.getElem_of_mem hb
  cases hsat : (ReducedModRCheck.DefineGadget ⟨Input⟩ api).2.satisfied with
  | false => rfl
  | true =>
    exfalso
    unfold ReducedModRCheck.DefineGadget at hsat
    rw [if_neg (by simpa using hL)] at hsat
    simp only [satisfied_AssertIsEqual, Bool.and_eq_true] at hsat
    have h := ReducedModRCheck_loop_asserts ⟨Input⟩ _ _ _ _ hsat.2 i hi
    rw [List.getD_eq_getElem _ _ hi] at h
    exact hnot h

/-- Witness of C17: modulus `13`, four elements the second of which is `2`. -/
theorem ReducedModRCheck_rejects_non_boolean_witness :
    (BitLen 13 ≤ ([1, 2, 0, 0] : List (ZMod 13)).length ∧
      ∃ b ∈ ([1, 2, 0, 0] : List (ZMod 13)), ¬ (b = 0 ∨ b = 1)) ∧
    (ReducedModRCheck.DefineGadget ⟨[1, 2, 0, 0]⟩ (API.empty 13)).2.satisfied = false :=
  ⟨⟨by decide, by decide⟩,
    ReducedModRCheck_rejects_non_boolean 13 [1, 2, 0, 0] (API.empty 13) (by decide) (by decide)⟩

/-! ## The codecs: alignment errors and the defensive check -/

/-- C14, as the code has it. Alignment errors of the field codec:
`ToReducedBinaryBigEndian(x, size)` panics inside `api.ToBinary` when
`size <= 0`, and for `size > 0` it returns, with a non-nil error exactly when
`size` is not a multiple of 8; `FromBinaryBigEndian(bits)` returns a non-nil
error exactly when `len(bits)` is not a multiple of 8, it panics inside
`api.FromBinary` on the empty slice and returns a value with a nil error on
the other aligned lengths; in both failing cases the error is the
`bitPatternLengthError` that carries the offending length and the returned
value is nil. -/
theorem codec_alignment_errors (R : Nat) (x : ZMod R) (size : Int) (w : Nat → ZMod R)
    (bits : List (ZMod R)) (api : API R) :
    (size ≤ 0 → ToReducedBinaryBigEndian x size api w = none) ∧
    (0 < size → ∃ bitsBigEndian err api1,
      ToReducedBinaryBigEndian x size api w = some (bitsBigEndian, err, api1) ∧
      (err ≠ none ↔ size % 8 ≠ 0) ∧
      (size % 8 ≠ 0 → bitsBigEndian = [] ∧ err = some ⟨size⟩)) ∧
    ((∃ value err api1, FromBinaryBigEndian bits api = some (value, err, api1) ∧ err ≠ none) ↔
      bits.length % 8 ≠ 0) ∧
    (bits.length % 8 ≠ 0 →
      FromBinaryBigEndian bits api = some (none, some ⟨(bits.length : Int)⟩, api)) ∧
    (bits = [] → FromBinaryBigEndian bits api = none) ∧
    (bits ≠ [] → bits.length % 8 = 0 →
      ∃ value api1, FromBinaryBigEndian bits api = some (some value, none, api1)) := by
  have hfrom_bad : bits.length % 8 ≠ 0 →
      FromBinaryBigEndian bits api = some (none, some ⟨(bits.length : Int)⟩, api) := by
    intro h
    simp only [FromBinaryBigEndian, SwapBitArrayEndianness_unaligned bits h]
  have hfrom_ok : bits.length % 8 = 0 →
      FromBinaryBigEndian bits api = none ∨
        ∃ value api1, FromBinaryBigEndian bits api = some (some value, none, api1) := by
    intro h
    have hsw := SwapBitArrayEndianness_aligned bits (bits.length / 8) (by omega)
    by_cases he : (reversedChunks bits (bits.length / 8)).length = 0
    · left
      simp only [FromBinaryBigEndian, hsw, FromBinary, if_pos he]
    · right
      exact ⟨_, _, FromBinaryBigEndian_aligned bits _ api he hsw⟩
  refine ⟨ToReducedBinaryBigEndian_nonpos x size api w, ?_, ?_, hfrom_bad, ?_, ?_⟩
  · intro hpos
    obtain ⟨s, rfl⟩ : ∃ s : Nat, size = (s : Int) := ⟨size.toNat, by omega⟩
    have hs : 0 < s := by omega
    have hlen : ((List.range s).map w).length = s := by simp
    refine ⟨_, _, _, ToReducedBinaryBigEndian_pos x s api w hs, ?_, ?_⟩
    · constructor
      · intro he hz
        apply he
        rw [SwapBitArrayEndianness_aligned _ (s / 8) (by rw [hlen]; omega)]
      · intro hz
        rw [SwapBitArrayEndianness_unaligned _ (by rw [hlen]; omega)]
        simp
    · intro hz
      rw [SwapBitArrayEndianness_unaligned _ (by rw [hlen]; omega), hlen]
      exact ⟨rfl, rfl⟩
  · constructor
    · rintro ⟨value, err, api1, hret, herr⟩ hz
      rcases hfrom_ok hz with h | ⟨v, a, h⟩
      · rw [h] at hret
        exact absurd hret (by simp)
      · rw [h] at hret
        simp only [Option.some.injEq, Prod.mk.injEq] at hret
        exact herr hret.2.1.symm
    · intro hz
      exact ⟨_, _, _, hfrom_bad hz, by simp⟩
  · intro he
    subst he
    have hsw := SwapBitArrayEndianness_aligned ([] : List (ZMod R)) 0 rfl
    simp only [FromBinaryBigEndian, hsw, reversedChunks, FromBinary, List.length_nil, if_true]
  · intro hne hz
    have hsw := SwapBitArrayEndianness_aligned bits (bits.length / 8) (by omega)
    have hl := reversedChunks_length bits (bits.length / 8) (by omega)
    have hpos : 0 < bits.length := List.length_pos.2 hne
    exact ⟨_, _, FromBinaryBigEndian_aligned bits _ api (by omega) hsw⟩

/-- C14 fails as stated: the size `-3` is not a multiple of 8, yet
`ToReducedBinaryBigEndian(5, -3)` returns no error, it panics inside
`api.ToBinary`; so do the aligned size `0`, and `FromBinaryBigEndian` on the
empty slice inside `api.FromBinary`. -/
theorem codec_alignment_counterexample :
    ((-3 : Int) % 8 ≠ 0 ∧
      ToReducedBinaryBigEndian (5 : ZMod 13) (-3) (API.empty 13) (fun _ => 0) = none ∧
      ¬ ∃ bitsBigEndian api1,
        ToReducedBinaryBigEndian (5 : ZMod 13) (-3) (API.empty 13) (fun _ => 0) =
          some (bitsBigEndian, some ⟨-3⟩, api1)) ∧
    ToReducedBinaryBigEndian (5 : ZMod 13) 0 (API.empty 13) (fun _ => 0) = none ∧
    FromBinaryBigEndian ([] : List (ZMod 13)) (API.empty 13) = none := by
  have h3 : ToReducedBinaryBigEndian (5 : ZMod 13) (-3) (API.empty 13) (fun _ => 0) = none :=
    ToReducedBinaryBigEndian_nonpos _ _ _ _ (by decide)
  refine ⟨⟨by decide, h3, ?_⟩, ToReducedBinaryBigEndian_nonpos _ _ _ _ (by decide), ?_⟩
  · rintro ⟨b, a, h⟩
    rw [h3] at h
    exact absurd h (by simp)
  · simp [FromBinaryBigEndian, SwapBitArrayEndianness, SwapBitArrayEndianness.loop, FromBinary]

/-- C19. The defensive length check of `SwapBitArrayEndianness` is
unreachable: on an input whose length is a multiple of 8 the output accumulated
by the chunk-copy loop has exactly the length of the input, so the condition
of the second `bitPatternLengthError` branch is false and the function returns
the accumulated output with a nil error. -/
theorem SwapBitArrayEndianness_recheck_unreachable {α : Type} (bits : List α)
    (h : bits.length % 8 = 0) :
    (SwapBitArrayEndianness.loop bits ((bits.length : Int) - 8) []).length = bits.length ∧
    ¬ ((bits.length : Int) ≠
      ((SwapBitArrayEndianness.loop bits ((bits.length : Int) - 8) []).length : Int)) ∧
    SwapBitArrayEndianness bits =
      (SwapBitArrayEndianness.loop bits ((bits.length : Int) - 8) [], none) := by
  have hn : bits.length = 8 * (bits.length / 8) := by omega
  have hloop : SwapBitArrayEndianness.loop bits ((bits.length : Int) - 8) [] =
      reversedChunks bits (bits.length / 8) := by
    have e : (bits.length : Int) - 8 = 8 * ((bits.length / 8 : Nat) : Int) - 8 := by omega
    rw [e, SwapBitArrayEndianness_loop_eq]
    rfl
  have hl := reversedChunks_length bits (bits.length / 8) (by omega)
  refine ⟨?_, ?_, ?_⟩
  · rw [hloop, hl]; omega
  · rw [hloop, hl]; omega
  · rw [hloop]
    exact SwapBitArrayEndianness_aligned bits _ hn

/-- Witness of C19 on a sequence of two bytes. -/
theorem SwapBitArrayEndianness_recheck_unreachable_witness :
    ([0, 1, 2, 3, 4, 5, 6, 7, 8, 9, 10, 11, 12, 13, 14, 15] : List Nat).length % 8 = 0 ∧
    ((SwapBitArrayEndianness.loop
        ([0, 1, 2, 3, 4, 5, 6, 7, 8, 9, 10, 11, 12, 13, 14, 15] : List Nat)
        ((([0, 1, 2, 3, 4, 5, 6, 7, 8, 9, 10, 11, 12, 13, 14, 15] : List Nat).length : Int) - 8)
        []).length =
        ([0, 1, 2, 3, 4, 5, 6, 7, 8, 9, 10, 11, 12, 13, 14, 15] : List Nat).length ∧
    ¬ ((([0, 1, 2, 3, 4, 5, 6, 7, 8, 9, 10, 11, 12, 13, 14, 15] : List Nat).length : Int) ≠
      ((SwapBitArrayEndianness.loop
        ([0, 1, 2, 3, 4, 5, 6, 7, 8, 9, 10, 11, 12, 13, 14, 15] : List Nat)
        ((([0, 1, 2, 3, 4, 5, 6, 7, 8, 9, 10, 11, 12, 13, 14, 15] : List Nat).length : Int) - 8)
        []).length : Int)) ∧
    SwapBitArrayEndianness ([0, 1, 2, 3, 4, 5, 6, 7, 8, 9, 10, 11, 12, 13, 14, 15] : List Nat) =
      (SwapBitArrayEndianness.loop
        ([0, 1, 2, 3, 4, 5, 6, 7, 8, 9, 10, 11, 12, 13, 14, 15] : List Nat)
        ((([0, 1, 2, 3, 4, 5, 6, 7, 8, 9, 10, 11, 12, 13, 14, 15] : List Nat).length : Int) - 8)
        [], none)) :=
  ⟨by decide, SwapBitArrayEndianness_recheck_unreachable _ (by decide)⟩

/-! ## The range check: the states of the scan -/

theorem ReducedModRCheck_loop_succ {R : Nat} (r : ReducedModRCheck R) (i : Nat)
    (failed succeeded : ZMod R) (api : API R) :
    ReducedModRCheck.loop r (i + 1) failed succeeded api =
      ReducedModRCheck.loop r i (ReducedModRCheck.body r i failed succeeded api).1
        (ReducedModRCheck.body r i failed succeeded api).2.1
        (ReducedModRCheck.body r i failed succeeded api).2.2 := by
  simp only [ReducedModRCheck.loop, ReducedModRCheck.body]
  split <;> rfl

theorem ReducedModRCheck_loop_stateAfter {R : Nat} (r : ReducedModRCheck R) (api : API R) :
    ∀ j, j ≤ r.Input.length →
      ReducedModRCheck.loop r r.Input.length 0 0 api =
        ReducedModRCheck.loop r (r.Input.length - j) (ReducedModRCheck.stateAfter r api j).1
          (ReducedModRCheck.stateAfter r api j).2.1 (ReducedModRCheck.stateAfter r api j).2.2 := by
  intro j
  induction j with
  | zero => intro _; rfl
  | succ j ih =>
    intro hj
    have e : r.Input.length - j = (r.Input.length - (j + 1)) + 1 := by omega
    rw [ih (by omega), e, ReducedModRCheck_loop_succ]
    rfl

theorem ReducedModRCheck_loop_eq_stateAfter {R : Nat} (r : ReducedModRCheck R) (api : API R) :
    ReducedModRCheck.loop r r.Input.length 0 0 api =
      ReducedModRCheck.stateAfter r api r.Input.length := by
  rw [ReducedModRCheck_loop_stateAfter r api r.Input.length le_rfl, Nat.sub_self]
  rfl

theorem ReducedModRCheck_stateAfter_compared {R : Nat} (hR : 1 < R) (Input : List (ZMod R))
    (hbool : ∀ b ∈ Input, b = 0 ∨ b = 1) (hL : BitLen R ≤ Input.length) (api : API R) :
    ∀ j, j ≤ Input.length →
      Compared (ReducedModRCheck.stateAfter ⟨Input⟩ api j).1
        (ReducedModRCheck.stateAfter ⟨Input⟩ api j).2.1
        (bitsValue (Input.drop (Input.length - j))) (R / 2 ^ (Input.length - j)) := by
  intro j
  induction j with
  | zero =>
    intro _
    rw [Nat.sub_zero, List.drop_length, div_two_pow_eq_zero_of_BitLen_le R _ hL]
    exact Or.inr (Or.inr ⟨rfl, rfl, rfl⟩)
  | succ j ih =>
    intro hj
    have h := ih (by omega)
    have e : Input.length - j = (Input.length - (j + 1)) + 1 := by omega
    rw [e] at h
    have hlt : Input.length - (j + 1) < Input.length := by omega
    show Compared
      (ReducedModRCheck.body ⟨Input⟩ (Input.length - (j + 1))
        (ReducedModRCheck.stateAfter ⟨Input⟩ api j).1
        (ReducedModRCheck.stateAfter ⟨Input⟩ api j).2.1
        (ReducedModRCheck.stateAfter ⟨Input⟩ api j).2.2).1
      (ReducedModRCheck.body ⟨Input⟩ (Input.length - (j + 1))
        (ReducedModRCheck.stateAfter ⟨Input⟩ api j).1
        (ReducedModRCheck.stateAfter ⟨Input⟩ api j).2.1
        (ReducedModRCheck.stateAfter ⟨Input⟩ api j).2.2).2.1 _ _
    generalize Input.length - (j + 1) = k at h hlt ⊢
    generalize ReducedModRCheck.stateAfter ⟨Input⟩ api j = st at h ⊢
    have hb : Input.getD k 0 = 0 ∨ Input.getD k 0 = 1 := by
      rw [List.getD_eq_getElem _ _ hlt]
      exact hbool _ (List.getElem_mem hlt)
    have hstep := Compared_step hR _ _ (Input.getD k 0)
      (bitsValue (Input.drop (k + 1))) (R / 2 ^ (k + 1)) (Bit R k) h hb (Bit_lt_two R k)
    rw [← bitsValue_drop Input k hlt, ← div_two_pow_step R k] at hstep
    by_cases hz : Bit R k = 0
    · simp only [ReducedModRCheck.body, Or, Select, if_pos hz]
      exact hstep.1 hz
    · simp only [ReducedModRCheck.body, Or, Select, Sub, if_neg hz]
      exact hstep.2 hz

theorem Compared_iff {R : Nat} (hR : 1 < R) (failed succeeded : ZMod R) (A B : Nat)
    (h : Compared failed succeeded A B) :
    (succeeded = 1 ↔ A < B) ∧ (failed = 1 ↔ B < A) ∧ (A = B → failed = 0 ∧ succeeded = 0) := by
  haveI : Fact (1 < R) := ⟨hR⟩
  have h01 : (0 : ZMod R) ≠ 1 := zero_ne_one
  rcases h with ⟨hs, hf, hlt⟩ | ⟨hs, hf, hlt⟩ | ⟨hs, hf, heq⟩
  · refine ⟨⟨fun _ => hlt, fun _ => hs⟩, ⟨fun h1 => ?_, fun h1 => ?_⟩, fun h1 => ?_⟩
    · rw [hf] at h1; exact absurd h1 h01
    · omega
    · omega
  · refine ⟨⟨fun h1 => ?_, fun h1 => ?_⟩, ⟨fun _ => hlt, fun _ => hf⟩, fun h1 => ?_⟩
    · rw [hs] at h1; exact absurd h1 h01
    · omega
    · omega
  · refine ⟨⟨fun h1 => ?_, fun h1 => ?_⟩, ⟨fun h1 => ?_, fun h1 => ?_⟩, fun _ => ⟨hf, hs⟩⟩
    · rw [hs] at h1; exact absurd h1 h01
    · omega
    · rw [hf] at h1; exact absurd h1 h01
    · omega

theorem div_two_pow_mod_eq {R L i : Nat} (hR : R < 2 ^ L) (hi : i ≤ L) :
    R / 2 ^ i % 2 ^ (L - i) = R / 2 ^ i := by
  apply Nat.mod_eq_of_lt
  rw [Nat.div_lt_iff_lt_mul (Nat.two_pow_pos i), ← pow_add]
  have e : L - i + i = L := by omega
  rw [e]
  exact hR

/-- C15. Mutual exclusion of the flags of `ReducedModRCheck`: on a boolean
input at least as long as the bit length of the modulus, the loop ends in the
state reached after `len(Input)` iterations, and after any number `j` of
iterations of the scan from the most significant position down both `failed`
and `succeeded` are `0` or `1` and they are not both `1`. -/
theorem ReducedModRCheck_flags_exclusive (R : Nat) (hR : 1 < R) (Input : List (ZMod R))
    (api : API R) (hL : BitLen R ≤ Input.length) (hbool : ∀ b ∈ Input, b = 0 ∨ b = 1) :
    ReducedModRCheck.loop ⟨Input⟩ Input.length 0 0 api =
      ReducedModRCheck.stateAfter ⟨Input⟩ api Input.length ∧
    ∀ j, j ≤ Input.length →
      ((ReducedModRCheck.stateAfter ⟨Input⟩ api j).1 = 0 ∨
        (ReducedModRCheck.stateAfter ⟨Input⟩ api j).1 = 1) ∧
      ((ReducedModRCheck.stateAfter ⟨Input⟩ api j).2.1 = 0 ∨
        (ReducedModRCheck.stateAfter ⟨Input⟩ api j).2.1 = 1) ∧
      ¬ ((ReducedModRCheck.stateAfter ⟨Input⟩ api j).1 = 1 ∧
        (ReducedModRCheck.stateAfter ⟨Input⟩ api j).2.1 = 1) := by
  refine ⟨ReducedModRCheck_loop_eq_stateAfter ⟨Input⟩ api, fun j hj => ?_⟩
  have hc := ReducedModRCheck_stateAfter_compared hR Input hbool hL api j hj
  have hb := Compared_bool _ _ _ _ hc
  have hi := Compared_iff hR _ _ _ _ hc
  refine ⟨hb.1, hb.2, fun hboth => ?_⟩
  have h1 := hi.1.1 hboth.2
  have h2 := hi.2.1.1 hboth.1
  omega

/-- Witness of C15: modulus `13`, the four bits of `9`. -/
theorem ReducedModRCheck_flags_exclusive_witness :
    (1 < 13 ∧ BitLen 13 ≤ ([1, 0, 0, 1] : List (ZMod 13)).length ∧
      ∀ b ∈ ([1, 0, 0, 1] : List (ZMod 13)), b = 0 ∨ b = 1) ∧
    (ReducedModRCheck.loop ⟨[1, 0, 0, 1]⟩ ([1, 0, 0, 1] : List (ZMod 13)).length 0 0
        (API.empty 13) =
      ReducedModRCheck.stateAfter ⟨[1, 0, 0, 1]⟩ (API.empty 13)
        ([1, 0, 0, 1] : List (ZMod 13)).length ∧
    ∀ j, j ≤ ([1, 0, 0, 1] : List (ZMod 13)).length →
      ((ReducedModRCheck.stateAfter ⟨[1, 0, 0, 1]⟩ (API.empty 13) j).1 = 0 ∨
        (ReducedModRCheck.stateAfter ⟨[1, 0, 0, 1]⟩ (API.empty 13) j).1 = 1) ∧
      ((ReducedModRCheck.stateAfter ⟨[1, 0, 0, 1]⟩ (API.empty 13) j).2.1 = 0 ∨
        (ReducedModRCheck.stateAfter ⟨[1, 0, 0, 1]⟩ (API.empty 13) j).2.1 = 1) ∧
      ¬ ((ReducedModRCheck.stateAfter ⟨[1, 0, 0, 1]⟩ (API.empty 13) j).1 = 1 ∧
        (ReducedModRCheck.stateAfter ⟨[1, 0, 0, 1]⟩ (API.empty 13) j).2.1 = 1)) :=
  ⟨⟨by decide, by decide, by decide⟩,
    ReducedModRCheck_flags_exclusive 13 (by decide) [1, 0, 0, 1] (API.empty 13) (by decide)
      (by decide)⟩

/-- C16. Loop invariant of the comparison in `ReducedModRCheck`: on a boolean
input of length `L` at least the bit length of the modulus `R`, for every
position `i`, after the scan has processed the positions `L - 1` down to `i`
(that is after `L - i` iterations), `succeeded = 1` exactly when the integer
formed by the input bits `i..L-1` is less than the integer formed by the bits
`i..L-1` of `R`, `failed = 1` exactly when it is greater, and both flags are
`0` when the two are equal.  At the end of the loop `succeeded = 1` exactly
when the value of the input is below `R` and `failed = 1` exactly when it is
above `R`. -/
theorem ReducedModRCheck_scan_invariant (R : Nat) (hR : 1 < R) (Input : List (ZMod R))
    (api : API R) (hL : BitLen R ≤ Input.length) (hbool : ∀ b ∈ Input, b = 0 ∨ b = 1) :
    (∀ i, i ≤ Input.length →
      ((ReducedModRCheck.stateAfter ⟨Input⟩ api (Input.length - i)).2.1 = 1 ↔
        bitsValue (Input.drop i) < R / 2 ^ i % 2 ^ (Input.length - i)) ∧
      ((ReducedModRCheck.stateAfter ⟨Input⟩ api (Input.length - i)).1 = 1 ↔
        R / 2 ^ i % 2 ^ (Input.length - i) < bitsValue (Input.drop i)) ∧
      (bitsValue (Input.drop i) = R / 2 ^ i % 2 ^ (Input.length - i) →
        (ReducedModRCheck.stateAfter ⟨Input⟩ api (Input.length - i)).1 = 0 ∧
        (ReducedModRCheck.stateAfter ⟨Input⟩ api (Input.length - i)).2.1 = 0)) ∧
    ((ReducedModRCheck.loop ⟨Input⟩ Input.length 0 0 api).2.1 = 1 ↔ bitsValue Input < R) ∧
    ((ReducedModRCheck.loop ⟨Input⟩ Input.length 0 0 api).1 = 1 ↔ R < bitsValue Input) := by
  have hRlt : R < 2 ^ Input.length := (BitLen_le_iff R _).1 hL
  have key : ∀ i, i ≤ Input.length →
      Compared (ReducedModRCheck.stateAfter ⟨Input⟩ api (Input.length - i)).1
        (ReducedModRCheck.stateAfter ⟨Input⟩ api (Input.length - i)).2.1
        (bitsValue (Input.drop i)) (R / 2 ^ i % 2 ^ (Input.length - i)) := by
    intro i hi
    have hc := ReducedModRCheck_stateAfter_compared hR Input hbool hL api (Input.length - i)
      (by omega)
    have e : Input.length - (Input.length - i) = i := by omega
    rw [e] at hc
    rw [div_two_pow_mod_eq hRlt hi]
    exact hc
  refine ⟨fun i hi => Compared_iff hR _ _ _ _ (key i hi), ?_⟩
  have h0 := key 0 (Nat.zero_le _)
  rw [Nat.sub_zero, List.drop_zero, pow_zero, Nat.div_one, Nat.mod_eq_of_lt hRlt,
    ← ReducedModRCheck_loop_eq_stateAfter ⟨Input⟩ api] at h0
  have hi := Compared_iff hR _ _ _ _ h0
  exact ⟨hi.1, hi.2.1⟩

/-- Witness of C16: modulus `13`, the four bits of `9`. -/
theorem ReducedModRCheck_scan_invariant_witness :
    (1 < 13 ∧ BitLen 13 ≤ ([1, 0, 0, 1] : List (ZMod 13)).length ∧
      ∀ b ∈ ([1, 0, 0, 1] : List (ZMod 13)), b = 0 ∨ b = 1) ∧
    ((∀ i, i ≤ ([1, 0, 0, 1] : List (ZMod 13)).length →
      ((ReducedModRCheck.stateAfter ⟨[1, 0, 0, 1]⟩ (API.empty 13)
          (([1, 0, 0, 1] : List (ZMod 13)).length - i)).2.1 = 1 ↔
        bitsValue (([1, 0, 0, 1] : List (ZMod 13)).drop i) <
          13 / 2 ^ i % 2 ^ (([1, 0, 0, 1] : List (ZMod 13)).length - i)) ∧
      ((ReducedModRCheck.stateAfter ⟨[1, 0, 0, 1]⟩ (API.empty 13)
          (([1, 0, 0, 1] : List (ZMod 13)).length - i)).1 = 1 ↔
        13 / 2 ^ i % 2 ^ (([1, 0, 0, 1] : List (ZMod 13)).length - i) <
          bitsValue (([1, 0, 0, 1] : List (ZMod 13)).drop i)) ∧
      (bitsValue (([1, 0, 0, 1] : List (ZMod 13)).drop i) =
          13 / 2 ^ i % 2 ^ (([1, 0, 0, 1] : List (ZMod 13)).length - i) →
        (ReducedModRCheck.stateAfter ⟨[1, 0, 0, 1]⟩ (API.empty 13)
          (([1, 0, 0, 1] : List (ZMod 13)).length - i)).1 = 0 ∧
        (ReducedModRCheck.stateAfter ⟨[1, 0, 0, 1]⟩ (API.empty 13)
          (([1, 0, 0, 1] : List (ZMod 13)).length - i)).2.1 = 0)) ∧
    ((ReducedModRCheck.loop ⟨[1, 0, 0, 1]⟩ ([1, 0, 0, 1] : List (ZMod 13)).length 0 0
        (API.empty 13)).2.1 = 1 ↔ bitsValue ([1, 0, 0, 1] : List (ZMod 13)) < 13) ∧
    ((ReducedModRCheck.loop ⟨[1, 0, 0, 1]⟩ ([1, 0, 0, 1] : List (ZMod 13)).length 0 0
        (API.empty 13)).1 = 1 ↔ 13 < bitsValue ([1, 0, 0, 1] : List (ZMod 13)))) :=
  ⟨⟨by decide, by decide, by decide⟩,
    ReducedModRCheck_scan_invariant 13 (by decide) [1, 0, 0, 1] (API.empty 13) (by decide)
      (by decide)⟩

/-! ## The path gadget: booleanness of the path and absence of local failure -/

theorem foldRounds_trace {R : Nat} (compress : ZMod R → ZMod R → ZMod R)
    (Proof Path : List (ZMod R)) (api : API R) (D : Nat) (hP : Proof.length = D + 1)
    (hPath : Path.length = D) :
    ∀ i, i ≤ D → ∃ v api1,
      foldRounds compress (fun direction running element => ⟨direction, element, running⟩)
        ⟨Proof, Path⟩ api i = some (v, api1) ∧
      api1.calls.length = api.calls.length + i ∧
      api1.satisfied =
        ((Path.take i).all (fun d => decide (d = 0 ∨ d = 1)) && api.satisfied) := by
  intro i
  induction i with
  | zero =>
    intro _
    have h0 : Proof[0]? = some Proof[0] := List.getElem?_eq_getElem (by omega)
    exact ⟨Proof[0], api, by simp only [foldRounds, h0], rfl, by simp⟩
  | succ i ih =>
    intro hi
    obtain ⟨v, api1, hfold, hcalls, hsat⟩ := ih (by omega)
    have hd : Path[i]? = some Path[i] := List.getElem?_eq_getElem (by omega)
    have he : Proof[i + 1]? = some Proof[i + 1] := List.getElem?_eq_getElem (by omega)
    have hnext := foldRounds_succ_eq compress
      (fun direction running element => ⟨direction, element, running⟩) ⟨Proof, Path⟩ api
      i _ _ _ _ api1 _ hfold he hd (ProofRound_DefineGadget_eq compress ⟨Path[i], Proof[i + 1], v⟩ api1)
    refine ⟨_, _, hnext, ?_, ?_⟩
    · simp only [List.length_cons, hcalls]
      omega
    · have htake : Path.take (i + 1) = Path.take i ++ [Path[i]] := by
        rw [List.take_succ, hd]
        rfl
      have hs : ∀ (b : List (ZMod R × ZMod R)) (a : API R),
          API.satisfied ⟨Constraint.isBoolean Path[i] :: Constraint.isBoolean Path[i] ::
            Constraint.isBoolean Path[i] :: a.constraints, b⟩ =
            (decide (Path[i] = 0 ∨ Path[i] = 1) && a.satisfied) := by
        intro b a
        simp only [API.satisfied, List.all_cons, Constraint.holds]
        cases decide (Path[i] = 0 ∨ Path[i] = 1) <;> simp
      rw [hs, hsat, htake, List.all_append]
      simp only [List.all_cons, List.all_nil, Bool.and_true]
      cases decide (Path[i] = 0 ∨ Path[i] = 1) <;> simp

theorem VerifyProof_trace {R : Nat} (compress : ZMod R → ZMod R → ZMod R)
    (Proof Path : List (ZMod R)) (api : API R) (D : Nat) (hP : Proof.length = D + 1)
    (hPath : Path.length = D) :
    ∃ out api1, VerifyProof.DefineGadget compress ⟨Proof, Path⟩ api = some ([out], api1) ∧
      api1.calls.length = api.calls.length + D ∧
      api1.satisfied = (Path.all (fun d => decide (d = 0 ∨ d = 1)) && api.satisfied) := by
  obtain ⟨v, api1, hfold, hcalls, hsat⟩ :=
    foldRounds_trace compress Proof Path api D hP hPath D le_rfl
  have hl : Proof.length - 1 = D := by omega
  rw [List.take_of_length_le (by omega)] at hsat
  refine ⟨v, api1, ?_, hcalls, hsat⟩
  rw [VerifyProof_eq_siblingFold compress ⟨Proof, Path⟩ api D hP hPath]
  simp only [VerifyProof.siblingFold, hl, hfold]

/-- C18. `VerifyProof` enforces booleanness of every path bit inside the
gadget: for a `Proof` of length `D + 1` and a `Path` of length `D` the gadget
returns a result, its constraints can be satisfied only if every element of
`Path` is `0` or `1`, a single element of `Path` that is neither makes the
constraints unsatisfied, and on a boolean `Path` every constraint the gadget
adds holds. -/
theorem VerifyProof_enforces_boolean_path (R : Nat) (compress : ZMod R → ZMod R → ZMod R)
    (Proof Path : List (ZMod R)) (D : Nat) (api : API R) (hP : Proof.length = D + 1)
    (hPath : Path.length = D) :
    ∃ out api1, VerifyProof.DefineGadget compress ⟨Proof, Path⟩ api = some ([out], api1) ∧
      (api1.satisfied = true → ∀ i, i < D → (Path.getD i 0 = 0 ∨ Path.getD i 0 = 1)) ∧
      ((∃ d ∈ Path, ¬ (d = 0 ∨ d = 1)) → api1.satisfied = false) ∧
      (api.satisfied = true → (∀ d ∈ Path, d = 0 ∨ d = 1) → api1.satisfied = true) := by
  obtain ⟨out, api1, h, _, hsat⟩ := VerifyProof_trace compress Proof Path api D hP hPath
  have hall : api1.satisfied = true → ∀ d ∈ Path, d = 0 ∨ d = 1 := by
    intro hs d hd
    rw [hsat, Bool.and_eq_true, List.all_eq_true] at hs
    exact of_decide_eq_true (hs.1 d hd)
  refine ⟨out, api1, h, ?_, ?_, ?_⟩
  · intro hs i hi
    rw [List.getD_eq_getElem _ _ (by omega)]
    exact hall hs _ (List.getElem_mem _)
  · rintro ⟨d, hd, hnot⟩
    cases hs : api1.satisfied with
    | false => rfl
    | true => exact absurd (hall hs d hd) hnot
  · intro hapi hb
    rw [hsat, Bool.and_eq_true, List.all_eq_true]
    exact ⟨fun d hd => decide_eq_true (hb d hd), hapi⟩

/-- Witness of C18: the field of `7` elements, `Proof = [5, 1, 2]` and the
path `[0, 3]` whose second element is not boolean. -/
theorem VerifyProof_enforces_boolean_path_witness :
    (([5, 1, 2] : List (ZMod 7)).length = 2 + 1 ∧ ([0, 3] : List (ZMod 7)).length = 2) ∧
    ∃ out api1, VerifyProof.DefineGadget sampleCompress7 ⟨[5, 1, 2], [0, 3]⟩ (API.empty 7) =
        some ([out], api1) ∧
      (api1.satisfied = true →
        ∀ i, i < 2 → (([0, 3] : List (ZMod 7)).getD i 0 = 0 ∨
          ([0, 3] : List (ZMod 7)).getD i 0 = 1)) ∧
      ((∃ d ∈ ([0, 3] : List (ZMod 7)), ¬ (d = 0 ∨ d = 1)) → api1.satisfied = false) ∧
      ((API.empty 7).satisfied = true → (∀ d ∈ ([0, 3] : List (ZMod 7)), d = 0 ∨ d = 1) →
        api1.satisfied = true) :=
  ⟨⟨by decide, by decide⟩,
    VerifyProof_enforces_boolean_path 7 sampleCompress7 [5, 1, 2] [0, 3] 2 (API.empty 7)
      (by decide) (by decide)⟩

/-- C20. `VerifyProof` has no local failure under its contract shape: for a
`Proof` of length `D + 1` and a `Path` of length `D`, the index accesses
`Proof[0]`, `Proof[i]` and `Path[i-1]` for `1 <= i <= D` are in range, the
gadget returns exactly one field element, and it makes exactly `D` calls of
the compression gadget, one for each application of `ProofRound`. -/
theorem VerifyProof_no_local_failure (R : Nat) (compress : ZMod R → ZMod R → ZMod R)
    (Proof Path : List (ZMod R)) (D : Nat) (api : API R) (hP : Proof.length = D + 1)
    (hPath : Path.length = D) :
    (∃ leaf, Proof[0]? = some leaf) ∧
    (∀ i, 1 ≤ i → i < Proof.length →
      (∃ hash, Proof[i]? = some hash) ∧ (∃ direction, Path[i - 1]? = some direction)) ∧
    ∃ out api1, VerifyProof.DefineGadget compress ⟨Proof, Path⟩ api = some ([out], api1) ∧
      api1.calls.length = api.calls.length + D := by
  refine ⟨⟨_, List.getElem?_eq_getElem (by omega)⟩, fun i h1 hi => ?_, ?_⟩
  · exact ⟨⟨_, List.getElem?_eq_getElem hi⟩, ⟨_, List.getElem?_eq_getElem (by omega)⟩⟩
  · obtain ⟨out, api1, h, hcalls, _⟩ := VerifyProof_trace compress Proof Path api D hP hPath
    exact ⟨out, api1, h, hcalls⟩

/-- Witness of C20: the field of `7` elements, `Proof = [5, 1, 2]`,
`Path = [0, 1]`. -/
theorem VerifyProof_no_local_failure_witness :
    (([5, 1, 2] : List (ZMod 7)).length = 2 + 1 ∧ ([0, 1] : List (ZMod 7)).length = 2) ∧
    ((∃ leaf, ([5, 1, 2] : List (ZMod 7))[0]? = some leaf) ∧
    (∀ i, 1 ≤ i → i < ([5, 1, 2] : List (ZMod 7)).length →
      (∃ hash, ([5, 1, 2] : List (ZMod 7))[i]? = some hash) ∧
      (∃ direction, ([0, 1] : List (ZMod 7))[i - 1]? = some direction)) ∧
    ∃ out api1, VerifyProof.DefineGadget sampleCompress7 ⟨[5, 1, 2], [0, 1]⟩ (API.empty 7) =
        some ([out], api1) ∧
      api1.calls.length = (API.empty 7).calls.length + 2) :=
  ⟨⟨by decide, by decide⟩,
    VerifyProof_no_local_failure 7 sampleCompress7 [5, 1, 2] [0, 1] 2 (API.empty 7)
      (by decide) (by decide)⟩

/-! ## The field codec: canonical uniqueness -/

theorem recompose_eq_cast_bitsValue {R : Nat} (hR : 1 < R) (bits : List (ZMod R)) :
    recompose bits = ((bitsValue bits : Nat) : ZMod R) := by
  haveI : NeZero R := ⟨by omega⟩
  induction bits with
  | nil => simp [recompose, bitsValue]
  | cons b bits ih =>
    show b + 2 * recompose bits = ((b.val + 2 * bitsValue bits : Nat) : ZMod R)
    rw [ih, Nat.cast_add, Nat.cast_mul, ZMod.natCast_zmod_val]
    rfl

theorem toBits_succ (R L y : Nat) :
    toBits R (L + 1) y = ((y % 2 : Nat) : ZMod R) :: toBits R L (y / 2) := by
  simp only [toBits, List.range_succ_eq_map, List.map_cons, List.map_map, pow_zero, Nat.div_one]
  congr 1
  apply List.map_congr_left
  intro i _
  simp only [Function.comp, Nat.succ_eq_add_one, pow_succ, Nat.div_div_eq_div_mul]
  rw [Nat.mul_comm]

theorem toBits_bitsValue {R : Nat} (hR : 1 < R) (bits : List (ZMod R))
    (hbool : ∀ b ∈ bits, b = 0 ∨ b = 1) : toBits R bits.length (bitsValue bits) = bits := by
  haveI : Fact (1 < R) := ⟨hR⟩
  induction bits with
  | nil => rfl
  | cons b bits ih =>
    have hrec := ih (fun c hc => hbool c (List.mem_cons_of_mem _ hc))
    have hv : bitsValue (b :: bits) = b.val + 2 * bitsValue bits := rfl
    rw [List.length_cons, toBits_succ, hv]
    have h1 : (b.val + 2 * bitsValue bits) / 2 = bitsValue bits ∧
        (((b.val + 2 * bitsValue bits) % 2 : Nat) : ZMod R) = b := by
      rcases hbool b (List.mem_cons_self _ _) with hb | hb
      · rw [hb, ZMod.val_zero]
        refine ⟨by omega, ?_⟩
        have : (0 + 2 * bitsValue bits) % 2 = 0 := by omega
        rw [this]; simp
      · rw [hb, ZMod.val_one]
        refine ⟨by omega, ?_⟩
        have : (1 + 2 * bitsValue bits) % 2 = 1 := by omega
        rw [this]; simp
    rw [h1.1, h1.2, hrec]

theorem ReducedModRCheck_satisfied_lt {R : Nat} (hR : 1 < R) (Input : List (ZMod R))
    (hbool : ∀ b ∈ Input, b = 0 ∨ b = 1) (hL : BitLen R ≤ Input.length) (api : API R)
    (h : (ReducedModRCheck.DefineGadget ⟨Input⟩ api).2.satisfied = true) :
    bitsValue Input < R := by
  obtain ⟨f, s, api1, he, _, _, hc⟩ := ReducedModRCheck_spec hR Input hbool hL api
  rw [he] at h
  simp only [satisfied_AssertIsEqual, Bool.and_eq_true, decide_eq_true_eq] at h
  exact ((Compared_iff hR _ _ _ _ hc).1).1 h.1

theorem ReducedModRCheck_accepts {R : Nat} (hR : 1 < R) (Input : List (ZMod R))
    (hbool : ∀ b ∈ Input, b = 0 ∨ b = 1) (hL : BitLen R ≤ Input.length) (api : API R)
    (hlt : bitsValue Input < R) :
    (ReducedModRCheck.DefineGadget ⟨Input⟩ api).2.satisfied = api.satisfied := by
  obtain ⟨f, s, api1, he, hsat, _, hc⟩ := ReducedModRCheck_spec hR Input hbool hL api
  have hs : s = 1 := ((Compared_iff hR _ _ _ _ hc).1).2 hlt
  rw [he]
  simp [hs, hsat]

theorem encoding_constraints_satisfied_iff {R : Nat} (hR : 1 < R) (x : ZMod R) (s : Nat)
    (api : API R) (hL : BitLen R ≤ s) (hapi : api.satisfied = true) (w : Nat → ZMod R) :
    (ReducedModRCheck.DefineGadget ⟨(List.range s).map w⟩
        (AssertIsEqual (((List.range s).map w).foldl AssertIsBoolean api)
          (recompose ((List.range s).map w)) x)).2.satisfied = true ↔
      (List.range s).map w = toBits R s x.val := by
  haveI : NeZero R := ⟨by omega⟩
  have hlen : ((List.range s).map w).length = s := by simp
  have hx : x.val < R := ZMod.val_lt x
  have hRs : R < 2 ^ s := (BitLen_le_iff R s).1 hL
  constructor
  · intro h
    have h1 := ReducedModRCheck_satisfied _ _ h
    simp only [satisfied_AssertIsEqual, satisfied_foldl_AssertIsBoolean, Bool.and_eq_true,
      decide_eq_true_eq, List.all_eq_true] at h1
    have hbool : ∀ b ∈ (List.range s).map w, b = 0 ∨ b = 1 := h1.2.1
    have hlt := ReducedModRCheck_satisfied_lt hR _ hbool (by rw [hlen]; exact hL) _ h
    have hval : x.val = bitsValue ((List.range s).map w) := by
      rw [← h1.1, recompose_eq_cast_bitsValue hR, ZMod.val_cast_of_lt hlt]
    have hb := toBits_bitsValue hR _ hbool
    rw [hlen, ← hval] at hb
    exact hb.symm
  · intro h
    rw [h]
    have hbv : bitsValue (toBits R s x.val) = x.val := by
      rw [bitsValue_toBits hR, Nat.mod_eq_of_lt (by omega)]
    rw [ReducedModRCheck_accepts hR _ (toBits_bool R s x.val)
      (by rw [toBits_length]; exact hL) _ (by rw [hbv]; exact hx)]
    simp only [satisfied_AssertIsEqual, satisfied_foldl_AssertIsBoolean, Bool.and_eq_true,
      decide_eq_true_eq, List.all_eq_true]
    refine ⟨?_, toBits_bool R s x.val, hapi⟩
    rw [recompose_eq_cast_bitsValue hR, hbv, ZMod.natCast_zmod_val]

theorem BitLen_pos {R : Nat} (hR : 1 < R) : 0 < BitLen R := by
  by_contra h
  have h0 : BitLen R ≤ 0 := by omega
  have := (BitLen_le_iff R 0).1 h0
  simp at this
  omega

/-- C12. Canonical uniqueness of the encoding: over a field of modulus `R`,
for a value `x`, a size `s` that is a multiple of 8 and at least the bit
length of `R`, and a builder that is satisfied beforehand,
`ToReducedBinaryBigEndian` returns with a nil error under every assignment of
the `s` decomposition bits, and an assignment satisfies its constraints
exactly when the bits are the `s`-bit binary expansion of the representative
of `x` in `[0, R)`.  Hence two satisfying assignments give the same
big-endian output, with a nil error, and an assignment whose bits encode a
wrapped integer `x + k * R` with `k >= 1` is rejected. -/
theorem canonical_encoding_unique (R : Nat) (hR : 1 < R) (x : ZMod R) (s : Nat) (api : API R)
    (hs : s % 8 = 0) (hL : BitLen R ≤ s) (hapi : api.satisfied = true) :
    (∀ w : Nat → ZMod R, ∃ bitsBigEndian api1,
      ToReducedBinaryBigEndian x (s : Int) api w = some (bitsBigEndian, none, api1) ∧
      (api1.satisfied = true ↔ (List.range s).map w = toBits R s x.val)) ∧
    (x.val < R ∧ ((x.val : Nat) : ZMod R) = x) ∧
    (∀ (w1 w2 : Nat → ZMod R) (b1 b2 : List (ZMod R)) (e1 e2 : Option bitPatternLengthError)
      (a1 a2 : API R),
      ToReducedBinaryBigEndian x (s : Int) api w1 = some (b1, e1, a1) →
      ToReducedBinaryBigEndian x (s : Int) api w2 = some (b2, e2, a2) →
      a1.satisfied = true → a2.satisfied = true → b1 = b2 ∧ e1 = none) ∧
    (∀ (w : Nat → ZMod R) (k : Nat), 1 ≤ k →
      bitsValue ((List.range s).map w) = x.val + k * R →
        ∃ bitsBigEndian api1,
          ToReducedBinaryBigEndian x (s : Int) api w = some (bitsBigEndian, none, api1) ∧
          api1.satisfied = false) := by
  haveI : NeZero R := ⟨by omega⟩
  have hiff := encoding_constraints_satisfied_iff hR x s api hL hapi
  have hx : x.val < R := ZMod.val_lt x
  have hRs : R < 2 ^ s := (BitLen_le_iff R s).1 hL
  have hpos : 0 < s := lt_of_lt_of_le (BitLen_pos hR) hL
  have hswap : ∀ w1 : Nat → ZMod R,
      SwapBitArrayEndianness ((List.range s).map w1) =
        (reversedChunks ((List.range s).map w1) (s / 8), none) := by
    intro w1
    exact SwapBitArrayEndianness_aligned _ _ (by simp; omega)
  have hret : ∀ w : Nat → ZMod R,
      ToReducedBinaryBigEndian x (s : Int) api w =
        some (reversedChunks ((List.range s).map w) (s / 8), none,
          (ReducedModRCheck.DefineGadget ⟨(List.range s).map w⟩
            (AssertIsEqual (((List.range s).map w).foldl AssertIsBoolean api)
              (recompose ((List.range s).map w)) x)).2) := by
    intro w
    rw [ToReducedBinaryBigEndian_pos x s api w hpos, hswap w]
  refine ⟨fun w => ⟨_, _, hret w, hiff w⟩, ⟨hx, ZMod.natCast_zmod_val x⟩, ?_, ?_⟩
  · intro w1 w2 b1 b2 e1 e2 a1 a2 h1 h2 hs1 hs2
    rw [hret w1] at h1
    rw [hret w2] at h2
    simp only [Option.some.injEq, Prod.mk.injEq] at h1 h2
    obtain ⟨hb1, he1, ha1⟩ := h1
    obtain ⟨hb2, _, ha2⟩ := h2
    rw [← ha1] at hs1
    rw [← ha2] at hs2
    refine ⟨?_, he1.symm⟩
    rw [← hb1, ← hb2, (hiff w1).1 hs1, (hiff w2).1 hs2]
  · intro w k hk hval
    refine ⟨_, _, hret w, ?_⟩
    cases hsat : (ReducedModRCheck.DefineGadget ⟨(List.range s).map w⟩
        (AssertIsEqual (((List.range s).map w).foldl AssertIsBoolean api)
          (recompose ((List.range s).map w)) x)).2.satisfied with
    | false => rfl
    | true =>
      exfalso
      rw [(hiff w).1 hsat, bitsValue_toBits hR, Nat.mod_eq_of_lt (by omega)] at hval
      have : 1 * R ≤ k * R := Nat.mul_le_mul_right R hk
      omega

/-- Witness of C12: modulus `13`, value `5`, one byte, a fresh builder. -/
theorem canonical_encoding_unique_witness :
    (1 < 13 ∧ 8 % 8 = 0 ∧ BitLen 13 ≤ 8 ∧ (API.empty 13).satisfied = true) ∧
    ((∀ w : Nat → ZMod 13, ∃ bitsBigEndian api1,
      ToReducedBinaryBigEndian (5 : ZMod 13) ((8 : Nat) : Int) (API.empty 13) w =
        some (bitsBigEndian, none, api1) ∧
      (api1.satisfied = true ↔ (List.range 8).map w = toBits 13 8 (5 : ZMod 13).val)) ∧
    ((5 : ZMod 13).val < 13 ∧ (((5 : ZMod 13).val : Nat) : ZMod 13) = 5) ∧
    (∀ (w1 w2 : Nat → ZMod 13) (b1 b2 : List (ZMod 13))
      (e1 e2 : Option bitPatternLengthError) (a1 a2 : API 13),
      ToReducedBinaryBigEndian (5 : ZMod 13) ((8 : Nat) : Int) (API.empty 13) w1 =
        some (b1, e1, a1) →
      ToReducedBinaryBigEndian (5 : ZMod 13) ((8 : Nat) : Int) (API.empty 13) w2 =
        some (b2, e2, a2) →
      a1.satisfied = true → a2.satisfied = true → b1 = b2 ∧ e1 = none) ∧
    (∀ (w : Nat → ZMod 13) (k : Nat), 1 ≤ k →
      bitsValue ((List.range 8).map w) = (5 : ZMod 13).val + k * 13 →
        ∃ bitsBigEndian api1,
          ToReducedBinaryBigEndian (5 : ZMod 13) ((8 : Nat) : Int) (API.empty 13) w =
            some (bitsBigEndian, none, api1) ∧
          api1.satisfied = false)) :=
  ⟨⟨by decide, by decide, by decide, by decide⟩,
    canonical_encoding_unique 13 (by decide) 5 8 (API.empty 13) (by decide) (by decide)
      (by decide)⟩

/-! ## The path gadget: flipped direction bits -/

theorem pairCompress_injective (a b c d : ZMod 0)
    (h : pairCompress a b = pairCompress c d) : a = c ∧ b = d := by
  have h1 : @Encodable.encode (Int × Int) _ (a, b) = @Encodable.encode (Int × Int) _ (c, d) :=
    Int.ofNat.inj h
  have h2 := Encodable.encode_injective h1
  exact ⟨(Prod.mk.inj h2).1, (Prod.mk.inj h2).2⟩

theorem flipDirection_length {R : Nat} (Path : List (ZMod R)) (k : Nat) :
    (flipDirection Path k).length = Path.length := by
  simp [flipDirection]

theorem flipDirection_getD_self {R : Nat} (Path : List (ZMod R)) (k : Nat)
    (hk : k < Path.length) : (flipDirection Path k).getD k 0 = 1 - Path.getD k 0 := by
  rw [List.getD_eq_getElem?_getD]
  unfold flipDirection
  rw [List.getElem?_set_self hk]
  rfl

theorem flipDirection_getD_ne {R : Nat} (Path : List (ZMod R)) (k j : Nat) (hj : j ≠ k) :
    (flipDirection Path k).getD j 0 = Path.getD j 0 := by
  rw [List.getD_eq_getElem?_getD, List.getD_eq_getElem?_getD]
  unfold flipDirection
  rw [List.getElem?_set_ne (Ne.symm hj)]

theorem flipDirection_bool {R : Nat} (Path : List (ZMod R)) (k : Nat)
    (hbool : ∀ d ∈ Path, d = 0 ∨ d = 1) (hk : k < Path.length) :
    ∀ d ∈ flipDirection Path k, d = 0 ∨ d = 1 := by
  intro d hd
  rcases List.mem_or_eq_of_mem_set hd with h | h
  · exact hbool d h
  · have hb : Path.getD k 0 = 0 ∨ Path.getD k 0 = 1 := by
      rw [List.getD_eq_getElem _ _ hk]
      exact hbool _ (List.getElem_mem hk)
    rcases hb with hb | hb
    · right; rw [h, hb, sub_zero]
    · left; rw [h, hb, sub_self]

theorem run_congr_path {R : Nat} (compress : ZMod R → ZMod R → ZMod R)
    (Proof A B : List (ZMod R)) :
    ∀ i, (∀ j, j < i → A.getD j 0 = B.getD j 0) →
      run compress Proof A i = run compress Proof B i := by
  intro i
  induction i with
  | zero => intro _; rfl
  | succ i ih =>
    intro h
    simp only [run, ih (fun j hj => h j (by omega)), h i (by omega)]

theorem run_eq_from {R : Nat} (compress : ZMod R → ZMod R → ZMod R)
    (Proof A B : List (ZMod R)) (m : Nat)
    (h0 : run compress Proof A m = run compress Proof B m)
    (hagree : ∀ j, m ≤ j → A.getD j 0 = B.getD j 0) :
    ∀ i, m ≤ i → run compress Proof A i = run compress Proof B i := by
  intro i
  induction i with
  | zero =>
    intro hm
    have e : m = 0 := by omega
    rw [← e]; exact h0
  | succ i ih =>
    intro hm
    by_cases hmi : m = i + 1
    · rw [← hmi]; exact h0
    · simp only [run, ih (by omega), hagree i (by omega)]

theorem roundInputs_eq_imp_run {R : Nat} (compress : ZMod R → ZMod R → ZMod R)
    (Proof A B : List (ZMod R)) (i : Nat) (hd : A.getD i 0 = B.getD i 0)
    (h : roundInputs compress Proof A i = roundInputs compress Proof B i) :
    run compress Proof A i = run compress Proof B i := by
  simp only [roundInputs, hd] at h
  split at h
  · exact (Prod.mk.inj h).1
  · exact (Prod.mk.inj h).2

theorem run_ne_from {R : Nat} (compress : ZMod R → ZMod R → ZMod R)
    (Proof A B : List (ZMod R)) (D m : Nat) (hP : Proof.length = D + 1)
    (hA : A.length = D) (hB : B.length = D) (hAb : ∀ d ∈ A, d = 0 ∨ d = 1)
    (hBb : ∀ d ∈ B, d = 0 ∨ d = 1)
    (h0 : run compress Proof A m ≠ run compress Proof B m)
    (hagree : ∀ j, m ≤ j → A.getD j 0 = B.getD j 0)
    (hinj : ∀ p ∈ compressionCalls compress Proof A, ∀ q ∈ compressionCalls compress Proof B,
      compress p.1 p.2 = compress q.1 q.2 → p = q) :
    ∀ i, m ≤ i → i ≤ D → run compress Proof A i ≠ run compress Proof B i := by
  intro i
  induction i with
  | zero =>
    intro hm _
    have e : m = 0 := by omega
    rw [← e]; exact h0
  | succ i ih =>
    intro hm hi
    by_cases hmi : m = i + 1
    · rw [← hmi]; exact h0
    · intro heq
      rw [run_succ_eq, run_succ_eq] at heq
      have hpair := hinj _
        (roundInputs_mem_compressionCalls compress Proof A D hP hA hAb i (by omega)) _
        (roundInputs_mem_compressionCalls compress Proof B D hP hB hBb i (by omega)) heq
      exact ih (by omega) (by omega)
        (roundInputs_eq_imp_run compress Proof A B i (hagree i (by omega)) hpair)

theorem roundInputs_flipDirection {R : Nat} (compress : ZMod R → ZMod R → ZMod R)
    (Proof Path : List (ZMod R)) (k : Nat) (hk : k < Path.length)
    (hb : Path.getD k 0 = 0 ∨ Path.getD k 0 = 1) :
    (roundInputs compress Proof Path k = roundInputs compress Proof (flipDirection Path k) k ↔
      run compress Proof Path k = Proof.getD (k + 1) 0) := by
  have hrun : run compress Proof (flipDirection Path k) k = run compress Proof Path k :=
    run_congr_path compress Proof _ _ k (fun j hj => flipDirection_getD_ne Path k j (by omega))
  have hflip := flipDirection_getD_self Path k hk
  constructor
  · intro h
    by_contra hne
    have h10 : (1 : ZMod R) ≠ 0 := by
      intro h10
      haveI : Subsingleton (ZMod R) := subsingleton_of_zero_eq_one h10.symm
      exact hne (Subsingleton.elim _ _)
    simp only [roundInputs, hrun, hflip] at h
    rcases hb with hb | hb
    · rw [hb] at h
      simp only [if_true, sub_zero, if_neg h10] at h
      exact hne (Prod.mk.inj h).1
    · rw [hb] at h
      simp only [if_neg h10, sub_self, if_true] at h
      exact hne (Prod.mk.inj h).2
  · intro h
    simp only [roundInputs, hrun, h]
    split <;> split <;> rfl

/-- C11, as the code has it. Flipped-direction detection: for a depth `D`, a
`Proof` of length `D + 1`, a boolean `Path` of length `D` and a position
`k < D`, if the compression function is injective on the input pairs it
receives in the two runs, then `VerifyProof` returns a value on `Path` and on
`Path` with bit `k` flipped, and the two values differ exactly when the
running value `run_k` that enters round `k + 1` differs from the proof element
`Proof[k + 1]` it is compressed with; when the two are equal the flip leaves
the output unchanged. -/
theorem VerifyProof_detects_flipped_direction (R : Nat) (compress : ZMod R → ZMod R → ZMod R)
    (D k : Nat) (Proof Path : List (ZMod R)) (api : API R) (hP : Proof.length = D + 1)
    (hPath : Path.length = D) (hbool : ∀ d ∈ Path, d = 0 ∨ d = 1) (hk : k < D)
    (hinj : ∀ p ∈ compressionCalls compress Proof Path,
      ∀ q ∈ compressionCalls compress Proof (flipDirection Path k),
        compress p.1 p.2 = compress q.1 q.2 → p = q) :
    ∃ out1 out2 api1 api2,
      VerifyProof.DefineGadget compress ⟨Proof, Path⟩ api = some ([out1], api1) ∧
      VerifyProof.DefineGadget compress ⟨Proof, flipDirection Path k⟩ api =
        some ([out2], api2) ∧
      (out1 ≠ out2 ↔ run compress Proof Path k ≠ Proof.getD (k + 1) 0) := by
  have hB : (flipDirection Path k).length = D := by rw [flipDirection_length, hPath]
  have hBb := flipDirection_bool Path k hbool (by omega)
  obtain ⟨api1, h1, _, _⟩ := VerifyProof_run compress Proof Path api D hP hPath hbool
  obtain ⟨api2, h2, _, _⟩ :=
    VerifyProof_run compress Proof (flipDirection Path k) api D hP hB hBb
  have hb : Path.getD k 0 = 0 ∨ Path.getD k 0 = 1 := by
    rw [List.getD_eq_getElem _ _ (by omega)]
    exact hbool _ (List.getElem_mem _)
  have hround := roundInputs_flipDirection compress Proof Path k (by omega) hb
  have hagree : ∀ j, k + 1 ≤ j → Path.getD j 0 = (flipDirection Path k).getD j 0 :=
    fun j hj => (flipDirection_getD_ne Path k j (by omega)).symm
  refine ⟨_, _, api1, api2, h1, h2, ?_⟩
  constructor
  · intro hne heq
    apply hne
    have hnext : run compress Proof Path (k + 1) =
        run compress Proof (flipDirection Path k) (k + 1) := by
      rw [run_succ_eq, run_succ_eq, hround.2 heq]
    exact run_eq_from compress Proof _ _ (k + 1) hnext hagree D (by omega)
  · intro hne
    have hnext : run compress Proof Path (k + 1) ≠
        run compress Proof (flipDirection Path k) (k + 1) := by
      intro heq
      rw [run_succ_eq, run_succ_eq] at heq
      have hpair := hinj _
        (roundInputs_mem_compressionCalls compress Proof Path D hP hPath hbool k hk) _
        (roundInputs_mem_compressionCalls compress Proof _ D hP hB hBb k hk) heq
      exact hne (hround.1 hpair)
    exact run_ne_from compress Proof _ _ D (k + 1) hP hPath hB hbool hBb hnext hagree hinj D
      (by omega) le_rfl

/-- Witness of C11, as the code has it: the field of `7` elements with the
compression `a + 2 * b`, the depth-3 path `[1, 1, 0]` of leaf `L3` with its
first bit flipped, and a first sibling `2` different from the leaf `1`. -/
theorem VerifyProof_detects_flipped_direction_witness :
    (([1, 2, 3, 5] : List (ZMod 7)).length = 3 + 1 ∧
      ([1, 1, 0] : List (ZMod 7)).length = 3 ∧
      (∀ d ∈ ([1, 1, 0] : List (ZMod 7)), d = 0 ∨ d = 1) ∧ 0 < 3 ∧
      (∀ p ∈ compressionCalls sampleCompress7 [1, 2, 3, 5] [1, 1, 0],
        ∀ q ∈ compressionCalls sampleCompress7 [1, 2, 3, 5] (flipDirection [1, 1, 0] 0),
          sampleCompress7 p.1 p.2 = sampleCompress7 q.1 q.2 → p = q)) ∧
    ∃ out1 out2 api1 api2,
      VerifyProof.DefineGadget sampleCompress7 ⟨[1, 2, 3, 5], [1, 1, 0]⟩ (API.empty 7) =
        some ([out1], api1) ∧
      VerifyProof.DefineGadget sampleCompress7 ⟨[1, 2, 3, 5], flipDirection [1, 1, 0] 0⟩
        (API.empty 7) = some ([out2], api2) ∧
      (out1 ≠ out2 ↔
        run sampleCompress7 [1, 2, 3, 5] [1, 1, 0] 0 ≠
          ([1, 2, 3, 5] : List (ZMod 7)).getD (0 + 1) 0) :=
  ⟨⟨by decide, by decide, by decide, by decide, by decide⟩,
    VerifyProof_detects_flipped_direction 7 sampleCompress7 3 0 [1, 2, 3, 5] [1, 1, 0]
      (API.empty 7) (by decide) (by decide) (by decide) (by decide) (by decide)⟩

/-- C11 fails as stated.  On the depth-3 path `[1, 1, 0]` of leaf `L3` with
the sibling leaf equal to the leaf (`Proof = [2, 2, 3, 1]`), flipping the first
direction bit leaves the output unchanged.  This is so over the field of `7`
elements with the compression `a + 2 * b`, which is injective on the pairs of
the two runs, where both outputs are `3`; and it is so in characteristic `0`
with a compression that is injective on all pairs. -/
theorem VerifyProof_flipped_direction_counterexample :
    (([2, 2, 3, 1] : List (ZMod 7)).length = 3 + 1 ∧
      ([1, 1, 0] : List (ZMod 7)).length = 3 ∧
      (∀ d ∈ ([1, 1, 0] : List (ZMod 7)), d = 0 ∨ d = 1) ∧
      flipDirection ([1, 1, 0] : List (ZMod 7)) 0 = [0, 1, 0] ∧
      (∀ p ∈ compressionCalls sampleCompress7 [2, 2, 3, 1] [1, 1, 0],
        ∀ q ∈ compressionCalls sampleCompress7 [2, 2, 3, 1] [0, 1, 0],
          sampleCompress7 p.1 p.2 = sampleCompress7 q.1 q.2 → p = q) ∧
      (VerifyProof.DefineGadget sampleCompress7 ⟨[2, 2, 3, 1], [1, 1, 0]⟩ (API.empty 7)).map
        Prod.fst = some [3] ∧
      (VerifyProof.DefineGadget sampleCompress7 ⟨[2, 2, 3, 1], [0, 1, 0]⟩ (API.empty 7)).map
        Prod.fst = some [3]) ∧
    ((∀ a b c d, pairCompress a b = pairCompress c d → a = c ∧ b = d) ∧
      flipDirection ([1, 1, 0] : List (ZMod 0)) 0 = [0, 1, 0] ∧
      (VerifyProof.DefineGadget pairCompress ⟨[2, 2, 3, 1], [1, 1, 0]⟩ (API.empty 0)).map
        Prod.fst =
      (VerifyProof.DefineGadget pairCompress ⟨[2, 2, 3, 1], [0, 1, 0]⟩ (API.empty 0)).map
        Prod.fst ∧
      (VerifyProof.DefineGadget pairCompress ⟨[2, 2, 3, 1], [1, 1, 0]⟩ (API.empty 0)).map
        Prod.fst =
      some [pairCompress (pairCompress 3 (pairCompress 2 2)) 1]) := by
  refine ⟨⟨by decide, by decide, by decide, by decide, by decide, by decide, by decide⟩,
    pairCompress_injective, by decide, ?_, ?_⟩
  · simp [VerifyProof.DefineGadget, VerifyProof.loop, ProofRound_DefineGadget_eq]
  · simp [VerifyProof.DefineGadget, VerifyProof.loop, ProofRound_DefineGadget_eq]

end Prover
